import Mathlib

/-!
# Verification of the Tygent graph execution engine

Shallow embedding of the DAG data structures, the scheduler and the prompt
rendering of the `tygent-js` repository, together with proofs and refutations
of the specified properties.

The repository contains two evolutionary revisions of the core:

* revision "TS": `src/src/dag.ts` (`Map`-based `DAG`) together with the
  scheduler of `src/unnamed/part_007`;
* revision "P4": the `Record`-based `DAG` of `src/unnamed/part_004` together
  with the scheduler of `src/src/scheduler.ts`.

JavaScript `Map`s and plain objects preserve insertion order and overwrite
values in place, which is modelled by association lists with an
order-preserving `setV` update.
-/

namespace Tyg

/-- Association list with string keys, modelling a JS `Map` / plain object:
iteration order is insertion order, updating an existing key keeps its
position. -/
abbrev AList (α : Type) := List (String × α)

/-- Lookup (`m.get(k)` / `m[k]`). -/
def getV {α : Type} : AList α → String → Option α
  | [], _ => none
  | (k', v) :: rest, k => if k' = k then some v else getV rest k

/-- Update (`m.set(k, v)` / `m[k] = v`): replaces in place if the key exists,
otherwise appends at the end, exactly as JS insertion-order semantics. -/
def setV {α : Type} : AList α → String → α → AList α
  | [], k, v => [(k, v)]
  | (k', v') :: rest, k, v =>
      if k' = k then (k', v) :: rest else (k', v') :: setV rest k v

/-- Key-presence test (`m.has(k)` / `k in m`). -/
def hasK {α : Type} (m : AList α) (k : String) : Bool :=
  (getV m k).isSome

/-- The key list of an association list, in iteration order. -/
def keysOf {α : Type} (m : AList α) : List String :=
  m.map Prod.fst

/-! ## The `Node` record used by `src/src/dag.ts` and the part_007 scheduler

Modelled from the spec: the `nodes.ts` revision defining the `Node` class with
fields `name`, `dependencies`, `tokenCost` (read through `getTokenCost()`) and
an executable action (`execute`) is not among the provided sources — only its
callers (`src/src/dag.ts`, the part_007 scheduler, the part_010 plan parser)
are.  Per spec §3, a node has a unique `name`, an ordered list of dependency
names, a non-negative `tokenCost` and an executable `action`; a throwing or
rejecting action is modelled by an `Except.error` result.  Latency and
metadata play no role in the claims and are omitted. -/
structure Node (α : Type) where
  name : String
  dependencies : List String
  tokenCost : Nat
  action : AList α → Except String α

/-! ## Revision "TS": the `Map`-based `DAG` of `src/src/dag.ts` -/

/-- The `DAG` class of `src/src/dag.ts`: a `Map` of nodes keyed by name and a
`Map` of adjacency lists.  (The private `nodeInputs` map and its
`getNodeInputs`/`setNodeInputs` accessors are not used by any claim and are
omitted.) -/
structure DagTS (α : Type) where
  name : String
  nodes : AList (Node α)
  edges : AList (List String)

/-- `new DAG(name)` (`src/src/dag.ts:20-22`). -/
def DagTS.empty {α : Type} (name : String) : DagTS α :=
  ⟨name, [], []⟩

/-- `DAG.addNode` (`src/src/dag.ts:29-41`): registers (or silently
overwrites) the node under its name, resets its adjacency list, and appends
an edge `dep → node.name` for every dependency already registered. -/
def DagTS.addNode {α : Type} (g : DagTS α) (n : Node α) : DagTS α :=
  let nodes := setV g.nodes n.name n
  let edges0 := setV g.edges n.name []
  let edges := n.dependencies.foldl
    (fun es dep =>
      if hasK nodes dep then setV es dep ((getV es dep).getD [] ++ [n.name]) else es)
    edges0
  ⟨g.name, nodes, edges⟩

/-- `DAG.addEdge` (`src/src/dag.ts:50-66`): throws when either endpoint is
unregistered, otherwise appends `b` to `a`'s adjacency list unless already
present.  It does not touch any node's `dependencies`. -/
def DagTS.addEdge {α : Type} (g : DagTS α) (a b : String) : Except String (DagTS α) :=
  if ¬ hasK g.nodes a then
    .error ("Source node '" ++ a ++ "' not found in DAG")
  else if ¬ hasK g.nodes b then
    .error ("Target node '" ++ b ++ "' not found in DAG")
  else
    let es := (getV g.edges a).getD []
    if b ∈ es then .ok g
    else .ok ⟨g.name, g.nodes, setV g.edges a (es ++ [b])⟩

/-- The mutable state of the DFS in `DAG.getTopologicalOrder`
(`src/src/dag.ts:142-187`): `visited` and `temp` model the two boolean maps
(a key present in the list stands for the value `true`), `acc` is the
`result` array. -/
structure DfsSt where
  visited : List String
  temp : List String
  acc : List String

/-- The inner `visit` closure of `src/src/dag.ts:150-176`: recurses on the
node's *dependencies* (not on the adjacency lists) and pushes the node after
them.  The recursion is bounded by explicit fuel; fuel exhaustion cannot
occur at the call sites used below, because the depth of the recursion is
bounded by the number of distinct node names. -/
def visitTS {α : Type} (g : DagTS α) : Nat → String → DfsSt → Except String DfsSt
  | 0, _, _ => .error "out of fuel"
  | fuel + 1, n, st =>
    if n ∈ st.temp then
      .error ("Cycle detected in DAG at node " ++ n)
    else if n ∈ st.visited then
      .ok st
    else
      let deps := match getV g.nodes n with
        | some nd => nd.dependencies
        | none => []
      match deps.foldlM
          (fun s d => if hasK g.nodes d then visitTS g fuel d s else .ok s)
          { st with temp := n :: st.temp } with
      | .error e => .error e
      | .ok st' =>
        .ok { visited := n :: st'.visited, temp := st'.temp.erase n, acc := st'.acc ++ [n] }

/-- The top-level `for (const [nodeName] of this.nodes)` loop of
`getTopologicalOrder` (`src/src/dag.ts:179-183`). -/
def visitAllTS {α : Type} (g : DagTS α) (fuel : Nat) : List String → DfsSt → Except String DfsSt
  | [], st => .ok st
  | n :: ns, st =>
    match (if n ∈ st.visited then .ok st else visitTS g fuel n st) with
    | .error e => .error e
    | .ok st' => visitAllTS g fuel ns st'

/-- `DAG.getTopologicalOrder` (`src/src/dag.ts:142-187`): DFS over the
dependency lists, pushing each node after its dependencies, then reversing —
so that the *returned* list has dependents before their dependencies. -/
def DagTS.getTopologicalOrder {α : Type} (g : DagTS α) : Except String (List String) :=
  match visitAllTS g (g.nodes.length + 1) (keysOf g.nodes) ⟨[], [], []⟩ with
  | .error e => .error e
  | .ok st => .ok st.acc.reverse

/-- The edge relation of a "TS" graph: `v` is in `u`'s adjacency list. -/
def DagTS.EdgeRel {α : Type} (g : DagTS α) (u v : String) : Prop :=
  v ∈ ((getV g.edges u).getD [])

instance {α : Type} (g : DagTS α) (u v : String) : Decidable (DagTS.EdgeRel g u v) := by
  unfold DagTS.EdgeRel; infer_instance

/-! ## Revision "P4": the `Record`-based `DAG` of `src/unnamed/part_004` -/

/-- The `BaseNode` of the revision paired with the part_004 `DAG`
(`src/src/nodes.ts`): identified by `id`, with an abstract `execute` taking
and producing a string-keyed record.  The schema/constraint/latency fields
play no role in any claim and are omitted. -/
structure NodeP4 (α : Type) where
  id : String
  action : AList α → Except String (AList α)

/-- The `DAG` class of `src/unnamed/part_004`: plain objects for `nodes`,
`edges` and `edgeMappings`.  (`id` (a uuid) is irrelevant to the claims;
`conditionalEdges` hold arbitrary predicate functions and are never created
in any claim's scope, so they are modelled as absent, which makes the
condition check in `getNodeInputs` always pass.) -/
structure DagP4 (α : Type) where
  name : String
  nodes : AList (NodeP4 α)
  edges : AList (List String)
  edgeMappings : AList (AList (AList String))

/-- `new DAG(name)` (`src/unnamed/part_004:53-60`). -/
def DagP4.empty {α : Type} (name : String) : DagP4 α :=
  ⟨name, [], [], []⟩

/-- `DAG.addNode` (`src/unnamed/part_004:67-77`): throws on a duplicate id,
otherwise registers the node and ensures an (empty) adjacency entry. -/
def DagP4.addNode {α : Type} (g : DagP4 α) (n : NodeP4 α) : Except String (DagP4 α) :=
  if hasK g.nodes n.id then
    .error ("Node with id " ++ n.id ++ " already exists in the DAG")
  else
    .ok { g with
      nodes := setV g.nodes n.id n,
      edges := if hasK g.edges n.id then g.edges else setV g.edges n.id [] }

/-- `DAG.addEdge` (`src/unnamed/part_004:86-110`): throws when either
endpoint is unregistered, appends the target to the source's adjacency list
unless already present, and records the optional field mapping. -/
def DagP4.addEdge {α : Type} (g : DagP4 α) (a b : String)
    (mapping : Option (AList String)) : Except String (DagP4 α) :=
  if ¬ hasK g.nodes a then
    .error ("Source node " ++ a ++ " does not exist in the DAG")
  else if ¬ hasK g.nodes b then
    .error ("Target node " ++ b ++ " does not exist in the DAG")
  else
    let g1 := if hasK g.edges a then g else { g with edges := setV g.edges a [] }
    let es := (getV g1.edges a).getD []
    let g2 := if b ∈ es then g1 else { g1 with edges := setV g1.edges a (es ++ [b]) }
    match mapping with
    | some m =>
        let em := setV g2.edgeMappings a (setV ((getV g2.edgeMappings a).getD []) b m)
        .ok { g2 with edgeMappings := em }
    | none => .ok g2

/-- Error raised by the part_004 topological ordering.  `cycleAt id` models
the thrown `Error` whose message names the offending node
(`src/unnamed/part_004:145`); `outOfFuel` is the artefact of the bounded
recursion and is proved unreachable on well-formed graphs. -/
inductive P4Err where
  | cycleAt (id : String)
  | outOfFuel
deriving DecidableEq

/-- The inner `visit` closure of `src/unnamed/part_004:143-160`: recurses on
the node's *successors* (the adjacency lists) and pushes the node after all
of them. -/
def visitP4 {α : Type} (g : DagP4 α) : Nat → String → DfsSt → Except P4Err DfsSt
  | 0, _, _ => .error .outOfFuel
  | fuel + 1, n, st =>
    if n ∈ st.temp then
      .error (.cycleAt n)
    else if n ∈ st.visited then
      .ok st
    else
      match ((getV g.edges n).getD []).foldlM
          (fun s v => visitP4 g fuel v s)
          { st with temp := n :: st.temp } with
      | .error e => .error e
      | .ok st' =>
        .ok { visited := n :: st'.visited, temp := st'.temp.erase n, acc := st'.acc ++ [n] }

/-- The top-level `for (const nodeId of Object.keys(this.nodes))` loop of
`getTopologicalOrder` (`src/unnamed/part_004:162-166`). -/
def visitAllP4 {α : Type} (g : DagP4 α) (fuel : Nat) : List String → DfsSt → Except P4Err DfsSt
  | [], st => .ok st
  | n :: ns, st =>
    match (if n ∈ st.visited then .ok st else visitP4 g fuel n st) with
    | .error e => .error e
    | .ok st' => visitAllP4 g fuel ns st'

/-- `DAG.getTopologicalOrder` (`src/unnamed/part_004:138-169`): DFS over the
adjacency lists from every node in insertion order, then reverse, producing
an order with every node before its successors. -/
def DagP4.getTopologicalOrder {α : Type} (g : DagP4 α) : Except P4Err (List String) :=
  match visitAllP4 g (g.nodes.length + 1) (keysOf g.nodes) ⟨[], [], []⟩ with
  | .error e => .error e
  | .ok st => .ok st.acc.reverse

/-- The edge relation of a "P4" graph: `v` is in `u`'s adjacency list. -/
def DagP4.EdgeRel {α : Type} (g : DagP4 α) (u v : String) : Prop :=
  v ∈ ((getV g.edges u).getD [])

instance {α : Type} (g : DagP4 α) (u v : String) : Decidable (DagP4.EdgeRel g u v) := by
  unfold DagP4.EdgeRel; infer_instance

/-- A graph obtained from `new DAG(name)` by any sequence of (successful)
`addNode` and `addEdge` calls — the construction discipline named by the
claims. -/
inductive DagP4.Built {α : Type} : DagP4 α → Prop where
  | empty (name : String) : DagP4.Built (DagP4.empty name)
  | addNode {g g' : DagP4 α} {n : NodeP4 α} :
      DagP4.Built g → DagP4.addNode g n = .ok g' → DagP4.Built g'
  | addEdge {g g' : DagP4 α} {a b : String} {m : Option (AList String)} :
      DagP4.Built g → DagP4.addEdge g a b m = .ok g' → DagP4.Built g'

/-! ## The scheduler of `src/unnamed/part_007`

The embedding models the deterministic data flow of `Scheduler.execute` and
`Scheduler.executeParallel`: topological ordering, per-node input collection,
token-budget admission and result storage.  Wall-clock features (rate
limiting, modelled latency sleeps, per-node timeouts), the audit-file side
effect and the optional hooks are not modelled; the schedulers below are the
source schedulers with those configurations absent.  `maxParallelNodes` is
kept as configuration because claim C8 is about it.  The run additionally
records, as pure observations, the list `ran` of nodes whose action was
invoked and (for the parallel variant) the `batches` of nodes launched
concurrently via `Promise.all`. -/

structure SchedP7 (α : Type) where
  dag : DagTS α
  maxParallelNodes : Nat
  tokenBudget : Option Nat
  tokensUsed : Nat

/-- Outcome of a sequential run (`Scheduler.execute`). -/
structure RunP7 (α : Type) where
  outcome : Except String (AList α)
  tokensUsed : Nat
  ran : List String

/-- The token-budget admission test of `src/unnamed/part_007:121-124`:
fails exactly when a configured budget would be exceeded by this node's
cost. -/
def budgetExceeded (budget : Option Nat) (tokens cost : Nat) : Bool :=
  match budget with
  | some b => tokens + cost > b
  | none => false

/-- Input collection for one node (`src/unnamed/part_007:127-140`, identical
at `213-226`): each dependency's recorded result under the dependency's name,
then any global input under a not-yet-claimed key. -/
def collectInputs {α : Type} (node : Node α) (results inputs : AList α) : AList α :=
  let m := node.dependencies.foldl
    (fun m d => match getV results d with
      | some v => setV m d v
      | none => m) []
  inputs.foldl (fun m kv => if (getV m kv.1).isSome then m else setV m kv.1 kv.2) m

/-- The main loop of `Scheduler.execute` (`src/unnamed/part_007:105-176`):
unregistered names are skipped, the budget is checked before the action runs
(throwing `'Token budget exceeded'`), `tokensUsed` grows by the node's cost,
and an action error is rethrown, aborting the remaining nodes. -/
def execGo {α : Type} (g : DagTS α) (budget : Option Nat) (inputs : AList α) :
    List String → AList α → Nat → List String → RunP7 α
  | [], results, tokens, ran => ⟨.ok results, tokens, ran⟩
  | n :: rest, results, tokens, ran =>
    match getV g.nodes n with
    | none => execGo g budget inputs rest results tokens ran
    | some node =>
      if budgetExceeded budget tokens node.tokenCost then
        ⟨.error "Token budget exceeded", tokens, ran⟩
      else
        let tokens' := tokens + node.tokenCost
        let ins := collectInputs node results inputs
        match node.action ins with
        | .error e => ⟨.error e, tokens', ran ++ [n]⟩
        | .ok res => execGo g budget inputs rest (setV results n res) tokens' (ran ++ [n])

/-- `Scheduler.execute` (`src/unnamed/part_007:100-179`): run the nodes in
the *reverse* of `getTopologicalOrder()` (line 102), starting the result map
from a copy of the inputs.  `tokensUsed` is carried over from the scheduler
instance — the source never resets it. -/
def SchedP7.execute {α : Type} (s : SchedP7 α) (inputs : AList α) : RunP7 α :=
  match s.dag.getTopologicalOrder with
  | .error e => ⟨.error e, s.tokensUsed, []⟩
  | .ok ord => execGo s.dag s.tokenBudget inputs ord.reverse inputs s.tokensUsed []

/-- `Scheduler.getLevelGroups` (`src/unnamed/part_007:285-323`): every node
starts at level 0, then a *single* pass over `getTopologicalOrder()` (not
reversed) raises each node above its dependencies, and nodes are grouped by
level. -/
def getLevelGroupsTS {α : Type} (g : DagTS α) : Except String (List (List String)) :=
  match g.getTopologicalOrder with
  | .error e => .error e
  | .ok order =>
    let levels0 : AList Nat := order.foldl (fun m n => setV m n 0) []
    let levels := order.foldl
      (fun m n =>
        match getV g.nodes n with
        | none => m
        | some node =>
          node.dependencies.foldl
            (fun m' d =>
              if (getV m' d).isSome then
                setV m' n (max ((getV m' n).getD 0) (((getV m' d).getD 0) + 1))
              else m') m)
      levels0
    let maxLevel := (levels.map Prod.snd).foldl max 0
    .ok (((List.range (maxLevel + 1)).map
      (fun i => keysOf (levels.filter (fun p => p.2 = i)))).filter (fun l => l ≠ []))

/-- Outcome of a parallel run (`Scheduler.executeParallel`), with the level
batches that were launched concurrently. -/
structure RunPar (α : Type) where
  outcome : Except String (AList α)
  tokensUsed : Nat
  ran : List String
  batches : List (List String)

/-- Budget admission for one level of `executeParallel`
(`src/unnamed/part_007:207-211`): each launched task checks and reserves its
cost synchronously, in launch order, before any action completes. -/
def admitLevel {α : Type} (g : DagTS α) (budget : Option Nat)
    (level : List String) (tokens : Nat) : Except String Nat :=
  level.foldlM
    (fun t n =>
      match getV g.nodes n with
      | none => .ok t
      | some node =>
        if budgetExceeded budget t node.tokenCost then .error "Token budget exceeded"
        else .ok (t + node.tokenCost))
    tokens

/-- The actions of one level of `executeParallel`
(`src/unnamed/part_007:236-259`): every node's inputs are collected against
the results recorded *before* the level (the shared result map is only
updated after the whole level settles), and the first action error rejects
the level. -/
def runLevelActions {α : Type} (g : DagTS α) (inputs results : AList α)
    (level : List String) : Except String (List (String × α)) :=
  level.foldlM
    (fun acc n =>
      match getV g.nodes n with
      | none => .ok acc
      | some node =>
        let ins := collectInputs node results inputs
        match node.action ins with
        | .error e => .error e
        | .ok res => .ok (acc ++ [(n, res)]))
    []

/-- The level loop of `Scheduler.executeParallel`
(`src/unnamed/part_007:192-275`): admit the level, run its actions, then —
if any task yielded `undefined` (an unregistered name) — break *before*
storing, otherwise store every result and continue. -/
def parGo {α : Type} (g : DagTS α) (budget : Option Nat) (inputs : AList α) :
    List (List String) → AList α → Nat → List String → List (List String) → RunPar α
  | [], results, tokens, ran, batches => ⟨.ok results, tokens, ran, batches⟩
  | level :: rest, results, tokens, ran, batches =>
    let batches' := batches ++ [level]
    match admitLevel g budget level tokens with
    | .error e => ⟨.error e, tokens, ran, batches'⟩
    | .ok tokens' =>
      match runLevelActions g inputs results level with
      | .error e => ⟨.error e, tokens', ran ++ level.filter (fun n => hasK g.nodes n), batches'⟩
      | .ok pairs =>
        let ran' := ran ++ level.filter (fun n => hasK g.nodes n)
        if level.any (fun n => ¬ hasK g.nodes n) then
          ⟨.ok results, tokens', ran', batches'⟩
        else
          parGo g budget inputs rest
            (pairs.foldl (fun r p => setV r p.1 p.2) results) tokens' ran' batches'

/-- `Scheduler.executeParallel` (`src/unnamed/part_007:187-278`): run the
level groups in sequence, all nodes of one level concurrently.
`maxParallelNodes` is never consulted by the source implementation. -/
def SchedP7.executeParallel {α : Type} (s : SchedP7 α) (inputs : AList α) : RunPar α :=
  match getLevelGroupsTS s.dag with
  | .error e => ⟨.error e, s.tokensUsed, [], []⟩
  | .ok levels => parGo s.dag s.tokenBudget inputs levels inputs s.tokensUsed [] []

/-! ## The scheduler of `src/src/scheduler.ts` (paired with the part_004 DAG) -/

/-- `DAG.getNodeInputs` (`src/unnamed/part_004:178-209`): scan every edge
into the node; with a field mapping only the mapped fields are copied under
their renamed keys, otherwise the whole upstream output object is merged in.
(Conditional edges are modelled as absent, so the condition check always
passes.) -/
def getNodeInputsP4 {α : Type} (g : DagP4 α) (nodeId : String)
    (outputs : AList (AList α)) : AList α :=
  g.edges.foldl
    (fun ins p =>
      if nodeId ∈ p.2 then
        match getV ((getV g.edgeMappings p.1).getD []) nodeId with
        | some mapping =>
          mapping.foldl
            (fun ins' q =>
              match getV outputs p.1 with
              | some o =>
                match getV o q.1 with
                | some v => setV ins' q.2 v
                | none => ins'
              | none => ins') ins
        | none =>
          match getV outputs p.1 with
          | some o => o.foldl (fun ins' kv => setV ins' kv.1 kv.2) ins
          | none => ins
      else ins)
    []

/-- `Scheduler.execute` of `src/src/scheduler.ts:34-78`, over string-leaf
record values: node outputs are string-keyed records, seeded with
`{ input: { data } }`; a node whose action throws has `{ error: message }`
stored as its output and execution *continues* with the remaining nodes
(lines 54-60).  The wall-clock `executionTimes`/`totalTime` bookkeeping is
not modelled; the model returns the `results` record and the
`executedNodes` list. -/
def srcExecute (g : DagP4 String) (inputData : String) :
    Except P4Err (AList (AList String) × List String) :=
  match g.getTopologicalOrder with
  | .error e => .error e
  | .ok ord =>
    .ok (ord.foldl
      (fun st nodeId =>
        let ins := getNodeInputsP4 g nodeId st.1
        match getV g.nodes nodeId with
        | none =>
          -- an unregistered id makes `node.execute` raise a TypeError inside
          -- the try block, which is caught and stored like any other failure
          (setV st.1 nodeId [("error", "Unknown execution error")], st.2 ++ [nodeId])
        | some node =>
          match node.action ins with
          | .ok res => (setV st.1 nodeId res, st.2 ++ [nodeId])
          | .error msg => (setV st.1 nodeId [("error", msg)], st.2 ++ [nodeId]))
      ([("input", [("data", inputData)])], []))

/-! ## Prompt rendering of `LLMNode.execute` (`src/src/nodes.ts:228-235`) -/

/-- The literal character `{`. -/
def lbrace : Char := Char.ofNat 123

/-- The literal character `}`. -/
def rbrace : Char := Char.ofNat 125

/-- The placeholder string built from an input key: an opening brace, the
key, a closing brace (`src/src/nodes.ts:231`). -/
def placeholder (k : List Char) : List Char :=
  lbrace :: (k ++ [rbrace])

/-- Split a string at the *first* occurrence of `pat`, the search JS
`String.prototype.replace` performs with a string pattern: returns the part
before and the part after the first occurrence, or `none` when `pat` does
not occur. -/
def splitFirst (pat : List Char) : List Char → Option (List Char × List Char)
  | [] => if pat.isPrefixOf [] then some ([], []) else none
  | c :: rest =>
    if pat.isPrefixOf (c :: rest) then some ([], (c :: rest).drop pat.length)
    else (splitFirst pat rest).map (fun p => (c :: p.1, p.2))

/-- JS `prompt.replace(pat, rep)` with a string pattern: replaces only the
first occurrence. -/
def replaceFirst (s pat rep : List Char) : List Char :=
  match splitFirst pat s with
  | none => s
  | some p => p.1 ++ rep ++ p.2

/-- JS `prompt.includes(pat)`. -/
def containsSub (s pat : List Char) : Bool :=
  (splitFirst pat s).isSome

/-- The prompt-rendering loop of `LLMNode.execute`
(`src/src/nodes.ts:229-235`): for each input entry in insertion order, if
the placeholder occurs in the current prompt, replace its first
occurrence with the (stringified) value. -/
def renderPrompt (template : List Char) (inputs : List (List Char × List Char)) :
    List Char :=
  inputs.foldl
    (fun p kv =>
      let ph := placeholder kv.1
      if containsSub p ph then replaceFirst p ph kv.2 else p)
    template

/-! ## Predicates used by the general theorems -/

/-- Cost read by the scheduler for one name: `node.getTokenCost()` for a
registered node, `0` for an unregistered (skipped) one. -/
def costOf {α : Type} (g : DagTS α) (n : String) : Nat :=
  match getV g.nodes n with
  | some nd => nd.tokenCost
  | none => 0

/-- Total token cost of a list of names. -/
def sumCost {α : Type} (g : DagTS α) (l : List String) : Nat :=
  (l.map (costOf g)).sum

/-- Every name in the list is a registered node. -/
def AllReg {α : Type} (g : DagTS α) (l : List String) : Prop :=
  ∀ n ∈ l, hasK g.nodes n = true

instance {α : Type} (g : DagTS α) (l : List String) : Decidable (AllReg g l) := by
  unfold AllReg; infer_instance

/-- The actions of all listed nodes succeed on every input map. -/
def ActionsOk {α : Type} (g : DagTS α) (l : List String) : Prop :=
  ∀ n ∈ l, ∀ nd, getV g.nodes n = some nd → ∀ ins, ∃ v, nd.action ins = .ok v

/-- A "TS" graph obtained from `new DAG(name)` by `addNode` calls with fresh
names only (no overwriting, no `addEdge`). -/
inductive BuiltNodesTS {α : Type} : DagTS α → Prop where
  | empty (name : String) : BuiltNodesTS (DagTS.empty name)
  | addNode {g : DagTS α} {n : Node α} :
      BuiltNodesTS g → n.name ∉ keysOf g.nodes → BuiltNodesTS (g.addNode n)

/-- Every registered node has an empty dependency list. -/
def DepFree {α : Type} (g : DagTS α) : Prop :=
  ∀ n nd, getV g.nodes n = some nd → nd.dependencies = []

/-- The claimed two-representation invariant: every adjacency edge `(u, v)`
is mirrored by `u` being among `v`'s declared dependencies. -/
def EdgeDepInv {α : Type} (g : DagTS α) : Prop :=
  ∀ u v, DagTS.EdgeRel g u v → ∃ nd, getV g.nodes v = some nd ∧ u ∈ nd.dependencies

/-- Graph-structure well-formedness of a "P4" graph, implied by construction
through `addNode`/`addEdge` (`DagP4.Built`). -/
structure WfP4 {α : Type} (g : DagP4 α) : Prop where
  nodupNodes : (keysOf g.nodes).Nodup
  edgesReg : ∀ u l, getV g.edges u = some l → u ∈ keysOf g.nodes ∧ ∀ v ∈ l, v ∈ keysOf g.nodes

/-- The invariant maintained by the DFS of
`DagP4.getTopologicalOrder` across `visit` calls: `visited` and `acc` hold
the same (duplicate-free) registered nodes, `temp` is the current
duplicate-free recursion stack, disjoint from `visited`, whose consecutive
entries are connected by edges (newest first), and every recorded node was
pushed after all of its successors. -/
structure InvP4 {α : Type} (g : DagP4 α) (st : DfsSt) : Prop where
  visAcc : ∀ x, x ∈ st.visited ↔ x ∈ st.acc
  visitedNodup : st.visited.Nodup
  accNodup : st.acc.Nodup
  tempNodup : st.temp.Nodup
  tempDisj : ∀ x ∈ st.temp, x ∉ st.visited
  accReg : ∀ x ∈ st.acc, x ∈ keysOf g.nodes
  tempReg : ∀ x ∈ st.temp, x ∈ keysOf g.nodes
  accOrder : ∀ u v, DagP4.EdgeRel g u v → u ∈ st.acc → List.Sublist [v, u] st.acc
  tempChain : List.Chain' (fun a b => DagP4.EdgeRel g b a) st.temp

/-- Context of a `visit` call: when the recursion stack is non-empty, the
visited node is a successor of the node on top of the stack. -/
def CallCtx {α : Type} (g : DagP4 α) (st : DfsSt) (n : String) : Prop :=
  ∀ h t, st.temp = h :: t → DagP4.EdgeRel g h n

/-- Acyclicity of the adjacency relation of a "P4" graph. -/
def AcyclicP4 {α : Type} (g : DagP4 α) : Prop :=
  ∀ u, ¬ Relation.TransGen (DagP4.EdgeRel g) u u

/-- The adjacency relation of a "P4" graph has a cycle. -/
def HasCycleP4 {α : Type} (g : DagP4 α) : Prop :=
  ∃ u, Relation.TransGen (DagP4.EdgeRel g) u u

/-! ## Concrete graphs and schedulers used in the claim theorems -/

/-- C1: node `A` with no dependencies. -/
def c1NodeA : Node Unit := ⟨"A", [], 0, fun _ => .ok ()⟩
/-- C1: node `B` declaring a dependency on `A`. -/
def c1NodeB : Node Unit := ⟨"B", ["A"], 0, fun _ => .ok ()⟩
/-- C1: the two-node graph with the edge `A → B` (created by `addNode` from
`B`'s dependency list). -/
def c1Dag : DagTS Unit := ((DagTS.empty "g").addNode c1NodeA).addNode c1NodeB

/-- C1 witness: node `A` of the edge-free "P4" graph. -/
def w1NodeA : NodeP4 Unit := ⟨"A", fun _ => .ok []⟩
/-- C1 witness: node `B` of the edge-free "P4" graph. -/
def w1NodeB : NodeP4 Unit := ⟨"B", fun _ => .ok []⟩
/-- C1 witness: a two-node, edge-free "P4" graph. -/
def w1Dag : DagP4 Unit := ⟨"w", [("A", w1NodeA), ("B", w1NodeB)], [("A", []), ("B", [])], []⟩

/-- C2: node `A`, producing `1`. -/
def c2NodeA : Node Nat := ⟨"A", [], 0, fun _ => .ok 1⟩
/-- C2: node `B`, adding `10` to `A`'s output. -/
def c2NodeB : Node Nat := ⟨"B", ["A"], 0, fun ins => .ok (((getV ins "A").getD 0) + 10)⟩
/-- C2: node `C`, adding `100` to `B`'s output. -/
def c2NodeC : Node Nat := ⟨"C", ["B"], 0, fun ins => .ok (((getV ins "B").getD 0) + 100)⟩
/-- C2: the three-node dependency chain `A → B → C`. -/
def c2Dag : DagTS Nat := (((DagTS.empty "chain").addNode c2NodeA).addNode c2NodeB).addNode c2NodeC
/-- C2: a scheduler over the chain with default options. -/
def c2Sched : SchedP7 Nat := ⟨c2Dag, 4, none, 0⟩

/-- C3: node `A` (no dependency list). -/
def c3NodeA : Node Unit := ⟨"A", [], 0, fun _ => .ok ()⟩
/-- C3: node `B` (no dependency list). -/
def c3NodeB : Node Unit := ⟨"B", [], 0, fun _ => .ok ()⟩
/-- C3: the two-node graph before adding edges. -/
def c3Base : DagTS Unit := ((DagTS.empty "g").addNode c3NodeA).addNode c3NodeB
/-- C3: the graph after `addEdge('A','B')`. -/
def c3Mid : DagTS Unit := ⟨"g", c3Base.nodes, [("A", ["B"]), ("B", [])]⟩
/-- C3: the graph after `addEdge('A','B'); addEdge('B','A')` — a two-cycle in
the adjacency relation. -/
def c3Dag : DagTS Unit := ⟨"g", c3Base.nodes, [("A", ["B"]), ("B", ["A"])]⟩

/-- C3 witness: node `A` of the cyclic "P4" graph. -/
def w3NodeA : NodeP4 Unit := ⟨"A", fun _ => .ok []⟩
/-- C3 witness: node `B` of the cyclic "P4" graph. -/
def w3NodeB : NodeP4 Unit := ⟨"B", fun _ => .ok []⟩
/-- C3 witness: the "P4" graph with the two-cycle `A → B → A`. -/
def w3Dag : DagP4 Unit := ⟨"w", [("A", w3NodeA), ("B", w3NodeB)], [("A", ["B"]), ("B", ["A"])], []⟩

/-- C4: node `a` with token cost 5. -/
def c4NodeA : Node Nat := ⟨"a", [], 5, fun _ => .ok 1⟩
/-- C4: node `b` with token cost 5, depending on `a`. -/
def c4NodeB : Node Nat := ⟨"b", ["a"], 5, fun _ => .ok 2⟩
/-- C4: the two-node graph with costs `[5, 5]`. -/
def c4Dag : DagTS Nat := ((DagTS.empty "budget").addNode c4NodeA).addNode c4NodeB
/-- C4: a scheduler over it with token budget 8. -/
def c4Sched : SchedP7 Nat := ⟨c4Dag, 4, some 8, 0⟩

/-- C5: node `A` (no dependency list). -/
def c5NodeA : Node Unit := ⟨"A", [], 0, fun _ => .ok ()⟩
/-- C5: node `B` (no dependency list). -/
def c5NodeB : Node Unit := ⟨"B", [], 0, fun _ => .ok ()⟩
/-- C5: the two-node graph before adding edges. -/
def c5Base : DagTS Unit := ((DagTS.empty "g").addNode c5NodeA).addNode c5NodeB
/-- C5: the graph after `addEdge('A','B')`. -/
def c5Dag : DagTS Unit := ⟨"g", c5Base.nodes, [("A", ["B"]), ("B", [])]⟩

/-- C5 witness: a node `X` with no dependencies. -/
def w5NodeX : Node Unit := ⟨"X", [], 0, fun _ => .ok ()⟩
/-- C5 witness: a node `Y` depending on `X`. -/
def w5NodeY : Node Unit := ⟨"Y", ["X"], 0, fun _ => .ok ()⟩
/-- C5 witness: the graph built by `addNode(X); addNode(Y)` (fresh names). -/
def w5Dag : DagTS Unit := ((DagTS.empty "w").addNode w5NodeX).addNode w5NodeY

/-- C6: a node whose action always throws `'boom'`. -/
def c6Node1 : NodeP4 String := ⟨"n1", fun _ => .error "boom"⟩
/-- C6: a downstream node whose action succeeds. -/
def c6Node2 : NodeP4 String := ⟨"n2", fun _ => .ok [("ok", "yes")]⟩
/-- C6: the "P4" graph `n1 → n2` with `n1` failing. -/
def c6Dag : DagP4 String := ⟨"f", [("n1", c6Node1), ("n2", c6Node2)], [("n1", ["n2"]), ("n2", [])], []⟩

/-- C6 witness: a part_007 node whose action always throws `'boom'`. -/
def w6NodeX : Node Nat := ⟨"x", [], 0, fun _ => .error "boom"⟩
/-- C6 witness: a downstream part_007 node. -/
def w6NodeY : Node Nat := ⟨"y", ["x"], 0, fun _ => .ok 2⟩
/-- C6 witness: the graph `x → y` with `x` failing. -/
def w6Dag : DagTS Nat := ((DagTS.empty "w").addNode w6NodeX).addNode w6NodeY
/-- C6 witness: a scheduler over it with default options. -/
def w6Sched : SchedP7 Nat := ⟨w6Dag, 4, none, 0⟩

/-- C7: a single node of token cost 5. -/
def c7Node : Node Nat := ⟨"a", [], 5, fun _ => .ok 1⟩
/-- C7: the one-node graph of total cost 5. -/
def c7Dag : DagTS Nat := (DagTS.empty "one").addNode c7Node
/-- C7: a freshly constructed scheduler over it with token budget 8. -/
def c7Sched : SchedP7 Nat := ⟨c7Dag, 4, some 8, 0⟩

/-- C8: three mutually independent nodes. -/
def c8NodeA : Node Nat := ⟨"a", [], 0, fun _ => .ok 1⟩
/-- C8: second independent node. -/
def c8NodeB : Node Nat := ⟨"b", [], 0, fun _ => .ok 2⟩
/-- C8: third independent node. -/
def c8NodeC : Node Nat := ⟨"c", [], 0, fun _ => .ok 3⟩
/-- C8: the graph of three independent nodes (one dependency level). -/
def c8Dag : DagTS Nat := (((DagTS.empty "ind").addNode c8NodeA).addNode c8NodeB).addNode c8NodeC
/-- C8: a scheduler over it with `maxParallelNodes = 1`. -/
def c8Sched : SchedP7 Nat := ⟨c8Dag, 1, none, 0⟩

/-- C8: the `i`-th node name of the generic violation family (a string of
`i + 1` letters `a`, so names are pairwise distinct). -/
def c8Name (i : Nat) : String :=
  String.mk (List.replicate (i + 1) 'a')

/-- C8: a dependency-free node with the `i`-th name. -/
def c8GenNode (i : Nat) : Node Unit := ⟨c8Name i, [], 0, fun _ => .ok ()⟩

/-- C8: the graph with `m + 1` mutually independent nodes. -/
def c8GenDag (m : Nat) : DagTS Unit :=
  ((List.range (m + 1)).map c8GenNode).foldl DagTS.addNode (DagTS.empty "gen")

/-- C8: a scheduler over the `m + 1`-node graph with `maxParallelNodes = m`. -/
def c8GenSched (m : Nat) : SchedP7 Unit := ⟨c8GenDag m, m, none, 0⟩

/-- C9: a node named `A` with token cost 0. -/
def c9NodeA : Node Unit := ⟨"A", [], 0, fun _ => .ok ()⟩
/-- C9: a *different* node also named `A` (token cost 7). -/
def c9NodeA2 : Node Unit := ⟨"A", [], 7, fun _ => .ok ()⟩
/-- C9: a node `B` depending on `A`. -/
def c9NodeB : Node Unit := ⟨"B", ["A"], 0, fun _ => .ok ()⟩
/-- C9: the graph after `addNode(A); addNode(B)` — `A`'s adjacency list is
`['B']`. -/
def c9G2 : DagTS Unit := ((DagTS.empty "g").addNode c9NodeA).addNode c9NodeB
/-- C9: the graph after additionally calling `addNode` with the *second*
node named `A`. -/
def c9G3 : DagTS Unit := c9G2.addNode c9NodeA2

/-- C9 witness: a fresh node for the `addNode` success case. -/
def w9Node : NodeP4 Unit := ⟨"N", fun _ => .ok []⟩
/-- C9 witness: a node whose id `A` collides with an existing one. -/
def w9DupNode : NodeP4 Unit := ⟨"A", fun _ => .ok []⟩

/-- C10: the key `x`. -/
def c10KeyX : List Char := ['x']
/-- C10: the key `y`. -/
def c10KeyY : List Char := ['y']
/-- C10: a template containing `{y}`, then `{x}` twice. -/
def c10Template : List Char :=
  placeholder c10KeyY ++ (" then ".data) ++ placeholder c10KeyX
    ++ (" and ".data) ++ placeholder c10KeyX

/-! # Theorems

## Association-list lemmas -/

@[simp] theorem getV_nil {α : Type} (k : String) : getV ([] : AList α) k = none := rfl

@[simp] theorem getV_cons {α : Type} (k' k : String) (v : α) (rest : AList α) :
    getV ((k', v) :: rest) k = if k' = k then some v else getV rest k := rfl

theorem getV_setV_self {α : Type} (m : AList α) (k : String) (v : α) :
    getV (setV m k v) k = some v := by
  induction m with
  | nil => simp [setV, getV]
  | cons p rest ih =>
    obtain ⟨k', v'⟩ := p
    by_cases h : k' = k
    · simp [setV, getV, h]
    · simp [setV, getV, h, ih]

theorem getV_setV_ne {α : Type} (m : AList α) (k k₀ : String) (v : α) (h : k ≠ k₀) :
    getV (setV m k v) k₀ = getV m k₀ := by
  induction m with
  | nil => simp [setV, getV, h]
  | cons p rest ih =>
    obtain ⟨k', v'⟩ := p
    by_cases h' : k' = k
    · subst h'; simp [setV, getV, h]
    · simp [setV, getV, h', ih]

@[simp] theorem keysOf_nil {α : Type} : keysOf ([] : AList α) = [] := rfl

@[simp] theorem keysOf_cons {α : Type} (k' : String) (v' : α) (rest : AList α) :
    keysOf ((k', v') :: rest) = k' :: keysOf rest := rfl

theorem keysOf_setV_of_mem {α : Type} (m : AList α) (k : String) (v : α)
    (h : k ∈ keysOf m) : keysOf (setV m k v) = keysOf m := by
  induction m with
  | nil => simp at h
  | cons p rest ih =>
    obtain ⟨k', v'⟩ := p
    by_cases h' : k' = k
    · simp [setV, h']
    · simp at h
      rcases h with h | h
      · exact absurd h.symm h'
      · simp [setV, h', ih h]

theorem keysOf_setV_of_not_mem {α : Type} (m : AList α) (k : String) (v : α)
    (h : k ∉ keysOf m) : keysOf (setV m k v) = keysOf m ++ [k] := by
  induction m with
  | nil => simp [setV]
  | cons p rest ih =>
    obtain ⟨k', v'⟩ := p
    simp at h
    push_neg at h
    simp [setV, Ne.symm h.1, ih h.2]

theorem mem_keysOf_iff_getV {α : Type} (m : AList α) (k : String) :
    k ∈ keysOf m ↔ (getV m k).isSome := by
  induction m with
  | nil => simp [getV]
  | cons p rest ih =>
    obtain ⟨k', v'⟩ := p
    by_cases h : k' = k
    · simp [getV, h]
    · simp [getV, h, ih, Ne.symm h]

theorem getV_eq_none_of_not_mem {α : Type} (m : AList α) (k : String)
    (h : k ∈ keysOf m → False) : getV m k = none := by
  have := (mem_keysOf_iff_getV m k)
  cases hg : getV m k with
  | none => rfl
  | some v => exact absurd (this.mpr (by simp [hg])) h

theorem hasK_true_iff {α : Type} (m : AList α) (k : String) :
    hasK m k = true ↔ k ∈ keysOf m := by
  rw [hasK, mem_keysOf_iff_getV]

/-! ## Lemmas about the sequential scheduler loop `execGo` -/

@[simp] theorem sumCost_nil {α : Type} (g : DagTS α) : sumCost g [] = 0 := rfl

@[simp] theorem sumCost_cons {α : Type} (g : DagTS α) (n : String) (l : List String) :
    sumCost g (n :: l) = costOf g n + sumCost g l := by
  simp [sumCost]

theorem costOf_eq {α : Type} (g : DagTS α) (n : String) (nd : Node α)
    (h : getV g.nodes n = some nd) : costOf g n = nd.tokenCost := by
  simp [costOf, h]

theorem getV_of_hasK {α : Type} (m : AList α) (k : String) (h : hasK m k = true) :
    ∃ v, getV m k = some v := by
  rw [hasK] at h
  cases hg : getV m k with
  | none => rw [hg] at h; simp at h
  | some v => exact ⟨v, rfl⟩

/-- A run over nodes whose total cost fits in the (optional) budget and
whose actions all succeed: it admits every node in order, ends with
`tokens + sumCost` reserved, and runs every action. -/
theorem execGo_ok {α : Type} (g : DagTS α) (bopt : Option Nat) (inputs : AList α) :
    ∀ (l : List String) (results : AList α) (tokens : Nat) (ran : List String),
    AllReg g l → ActionsOk g l →
    (∀ b, bopt = some b → tokens + sumCost g l ≤ b) →
    ∃ res, execGo g bopt inputs l results tokens ran =
      ⟨.ok res, tokens + sumCost g l, ran ++ l⟩ := by
  intro l
  induction l with
  | nil => intro results tokens ran _ _ _; exact ⟨results, by simp [execGo]⟩
  | cons n rest ih =>
    intro results tokens ran hreg hact hb
    obtain ⟨nd, hnd⟩ := getV_of_hasK _ _ (hreg n (by simp))
    have hcost : costOf g n = nd.tokenCost := costOf_eq g n nd hnd
    have hnotex : budgetExceeded bopt tokens nd.tokenCost = false := by
      cases bopt with
      | none => rfl
      | some b =>
        have := hb b rfl
        simp [sumCost_cons, hcost] at this
        simp [budgetExceeded]
        omega
    obtain ⟨v, hv⟩ := hact n (by simp) nd hnd (collectInputs nd results inputs)
    obtain ⟨res, hres⟩ := ih (setV results n v) (tokens + nd.tokenCost) (ran ++ [n])
      (fun m hm => hreg m (by simp [hm])) (fun m hm => hact m (by simp [hm]))
      (fun b hbb => by
        have := hb b hbb
        simp [sumCost_cons, hcost] at this ⊢
        omega)
    refine ⟨res, ?_⟩
    simp only [execGo, hnd, hnotex, hv]
    rw [hres]
    simp [sumCost_cons, hcost, List.append_assoc]
    omega

/-- A run whose execution order starts with an admissible, succeeding prefix
`l1` and then a node whose cost would push past the budget: it fails with
the budget error before that node's action runs; exactly the prefix ran and
only the prefix's cost was reserved. -/
theorem execGo_budget_error {α : Type} (g : DagTS α) (b : Nat) (inputs : AList α) :
    ∀ (l1 : List String) (n : String) (l2 : List String) (results : AList α)
      (tokens : Nat) (ran : List String),
    AllReg g l1 → ActionsOk g l1 → hasK g.nodes n = true →
    tokens + sumCost g l1 ≤ b →
    tokens + sumCost g l1 + costOf g n > b →
    execGo g (some b) inputs (l1 ++ n :: l2) results tokens ran =
      ⟨.error "Token budget exceeded", tokens + sumCost g l1, ran ++ l1⟩ := by
  intro l1
  induction l1 with
  | nil =>
    intro n l2 results tokens ran _ _ hn hle hgt
    obtain ⟨nd, hnd⟩ := getV_of_hasK _ _ hn
    have hcost : costOf g n = nd.tokenCost := costOf_eq g n nd hnd
    simp [sumCost_nil] at hle hgt
    have hex : budgetExceeded (some b) tokens nd.tokenCost = true := by
      simp [budgetExceeded]
      omega
    simp [execGo, hnd, hex]
  | cons m rest ih =>
    intro n l2 results tokens ran hreg hact hn hle hgt
    obtain ⟨nd, hnd⟩ := getV_of_hasK _ _ (hreg m (by simp))
    have hcost : costOf g m = nd.tokenCost := costOf_eq g m nd hnd
    have hnotex : budgetExceeded (some b) tokens nd.tokenCost = false := by
      simp [sumCost_cons, hcost] at hle
      simp [budgetExceeded]
      omega
    obtain ⟨v, hv⟩ := hact m (by simp) nd hnd (collectInputs nd results inputs)
    have step := ih n l2 (setV results m v) (tokens + nd.tokenCost) (ran ++ [m])
      (fun x hx => hreg x (by simp [hx])) (fun x hx => hact x (by simp [hx])) hn
      (by simp [sumCost_cons, hcost] at hle ⊢; omega)
      (by simp [sumCost_cons, hcost] at hgt ⊢; omega)
    simp only [List.cons_append, execGo, hnd, hnotex, hv]
    simp [step, sumCost_cons, hcost, List.append_assoc]
    all_goals omega

/-- A run that starts at most at the budget but whose remaining total cost
exceeds it always fails with the budget error (used for the second of two
consecutive runs). -/
theorem execGo_budget_exceeds {α : Type} (g : DagTS α) (b : Nat) (inputs : AList α) :
    ∀ (l : List String) (results : AList α) (tokens : Nat) (ran : List String),
    AllReg g l → ActionsOk g l →
    tokens ≤ b → tokens + sumCost g l > b →
    (execGo g (some b) inputs l results tokens ran).outcome =
      .error "Token budget exceeded" := by
  intro l
  induction l with
  | nil => intro results tokens ran _ _ hle hgt; simp [sumCost_nil] at hgt; omega
  | cons n rest ih =>
    intro results tokens ran hreg hact hle hgt
    obtain ⟨nd, hnd⟩ := getV_of_hasK _ _ (hreg n (by simp))
    have hcost : costOf g n = nd.tokenCost := costOf_eq g n nd hnd
    by_cases hex : tokens + nd.tokenCost > b
    · have : budgetExceeded (some b) tokens nd.tokenCost = true := by
        simp [budgetExceeded]; omega
      simp [execGo, hnd, this]
    · have hex' : budgetExceeded (some b) tokens nd.tokenCost = false := by
        simp [budgetExceeded]; omega
      obtain ⟨v, hv⟩ := hact n (by simp) nd hnd (collectInputs nd results inputs)
      simp only [execGo, hnd, hex', hv]
      exact ih (setV results n v) (tokens + nd.tokenCost) (ran ++ [n])
        (fun x hx => hreg x (by simp [hx])) (fun x hx => hact x (by simp [hx]))
        (by omega) (by simp [sumCost_cons, hcost] at hgt ⊢; omega)

/-- A run whose execution order is an admissible, succeeding prefix `l1`
followed by a node whose action always throws `e` (no budget configured):
the error is rethrown out of `execute`, the failing node's action ran, and
nothing after it ran. -/
theorem execGo_action_error {α : Type} (g : DagTS α) (inputs : AList α) :
    ∀ (l1 : List String) (n : String) (l2 : List String) (results : AList α)
      (tokens : Nat) (ran : List String) (e : String),
    AllReg g l1 → ActionsOk g l1 → hasK g.nodes n = true →
    (∀ nd, getV g.nodes n = some nd → ∀ ins, nd.action ins = .error e) →
    execGo g none inputs (l1 ++ n :: l2) results tokens ran =
      ⟨.error e, tokens + sumCost g l1 + costOf g n, ran ++ l1 ++ [n]⟩ := by
  intro l1
  induction l1 with
  | nil =>
    intro n l2 results tokens ran e _ _ hn herr
    obtain ⟨nd, hnd⟩ := getV_of_hasK _ _ hn
    have hcost : costOf g n = nd.tokenCost := costOf_eq g n nd hnd
    simp [execGo, hnd, budgetExceeded, herr nd hnd, hcost]
  | cons m rest ih =>
    intro n l2 results tokens ran e hreg hact hn herr
    obtain ⟨nd, hnd⟩ := getV_of_hasK _ _ (hreg m (by simp))
    have hcost : costOf g m = nd.tokenCost := costOf_eq g m nd hnd
    obtain ⟨v, hv⟩ := hact m (by simp) nd hnd (collectInputs nd results inputs)
    have step := ih n l2 (setV results m v) (tokens + nd.tokenCost) (ran ++ [m]) e
      (fun x hx => hreg x (by simp [hx])) (fun x hx => hact x (by simp [hx])) hn herr
    simp only [List.cons_append, execGo, hnd, budgetExceeded, hv]
    simp [step, sumCost_cons, hcost, List.append_assoc]
    all_goals omega

/-- Unfolding `Scheduler.execute` once the topological order is known. -/
theorem execute_eq {α : Type} (s : SchedP7 α) (inputs : AList α) (ord : List String)
    (h : s.dag.getTopologicalOrder = .ok ord) :
    s.execute inputs = execGo s.dag s.tokenBudget inputs ord.reverse inputs s.tokensUsed [] := by
  simp [SchedP7.execute, h]

/-! ## Claim C4 -/

/-- C4: with a token budget configured, part_007's `Scheduler.execute`
admits nodes in execution order while the cumulative cost stays within the
budget (first conjunct: a run whose total fits is admitted whole, every
action runs), and fails with `'Token budget exceeded'` exactly when the next
node's cost would push the cumulative total over the budget, before that
node's action runs and with no partial admission of it (second conjunct:
only the prefix ran and only its cost is reserved). -/
theorem c4_main {α : Type} (s : SchedP7 α) (b : Nat) (ord : List String) (inputs : AList α)
    (hb : s.tokenBudget = some b)
    (htopo : s.dag.getTopologicalOrder = .ok ord) :
    (AllReg s.dag ord.reverse → ActionsOk s.dag ord.reverse →
      s.tokensUsed + sumCost s.dag ord.reverse ≤ b →
      ∃ res, s.execute inputs =
        ⟨.ok res, s.tokensUsed + sumCost s.dag ord.reverse, ord.reverse⟩) ∧
    (∀ l1 n l2, ord.reverse = l1 ++ n :: l2 →
      AllReg s.dag l1 → hasK s.dag.nodes n = true → ActionsOk s.dag l1 →
      s.tokensUsed + sumCost s.dag l1 ≤ b →
      s.tokensUsed + sumCost s.dag l1 + costOf s.dag n > b →
      s.execute inputs =
        ⟨.error "Token budget exceeded", s.tokensUsed + sumCost s.dag l1, l1⟩) := by
  constructor
  · intro hreg hact hle
    obtain ⟨res, hres⟩ := execGo_ok s.dag s.tokenBudget inputs ord.reverse inputs
      s.tokensUsed [] hreg hact (fun b' hb' => by rw [hb] at hb'; cases hb'; exact hle)
    refine ⟨res, ?_⟩
    rw [execute_eq s inputs ord htopo]
    simpa using hres
  · intro l1 n l2 hsplit hreg hn hact hle hgt
    have h := execGo_budget_error s.dag b inputs l1 n l2 inputs s.tokensUsed []
      hreg hact hn hle hgt
    rw [execute_eq s inputs ord htopo, hb, hsplit]
    simpa using h

/-- C4 witness: the claim's own instance — costs `[5, 5]`, budget 8: node
`a` (5 ≤ 8) is admitted and its action runs; the run fails with the budget
error before `b`'s action runs. -/
theorem c4_witness :
    sumCost c4Dag ["a"] ≤ 8 ∧
    sumCost c4Dag ["a"] + costOf c4Dag "b" > 8 ∧
    c4Sched.execute [] =
      ⟨.error "Token budget exceeded", sumCost c4Dag ["a"], ["a"]⟩ := by
  have hact : ActionsOk c4Dag ["a"] := by
    intro n hn nd hnd ins
    simp [List.mem_singleton] at hn
    subst hn
    rw [show getV c4Dag.nodes "a" = some c4NodeA from rfl] at hnd
    cases hnd
    exact ⟨1, rfl⟩
  have h := (c4_main c4Sched 8 ["b", "a"] [] rfl rfl).2 ["a"] "b" [] rfl
    (by decide) (by decide) hact (by decide) (by decide)
  exact ⟨by decide, by decide, by simpa using h⟩

/-! ## Claim C6 -/

/-- C6 (amended): for part_007's `Scheduler.execute` the claim holds — if a
node's action throws, the error is rethrown to the caller and the run
aborts: exactly the preceding nodes and the failing node ran, nothing after
it.  (For the `Scheduler` of `src/src/scheduler.ts` the claim fails, see the
counterexample: the failure is stored as an `{error}` output and execution
continues.) -/
theorem c6_main {α : Type} (s : SchedP7 α) (ord : List String) (inputs : AList α)
    (l1 : List String) (n : String) (l2 : List String) (e : String)
    (hb : s.tokenBudget = none)
    (htopo : s.dag.getTopologicalOrder = .ok ord)
    (hsplit : ord.reverse = l1 ++ n :: l2)
    (hreg : AllReg s.dag l1) (hact : ActionsOk s.dag l1)
    (hn : hasK s.dag.nodes n = true)
    (herr : ∀ nd, getV s.dag.nodes n = some nd → ∀ ins, nd.action ins = .error e) :
    s.execute inputs =
      ⟨.error e, s.tokensUsed + sumCost s.dag l1 + costOf s.dag n, l1 ++ [n]⟩ := by
  have h := execGo_action_error s.dag inputs l1 n l2 inputs s.tokensUsed [] e
    hreg hact hn herr
  rw [execute_eq s inputs ord htopo, hb, hsplit]
  simpa using h

/-- C6 witness: on the graph `x → y` where `x`'s action always throws
`'boom'`, `execute` rejects with `'boom'` and `y` never runs. -/
theorem c6_witness :
    w6Sched.execute [] = ⟨.error "boom", 0, ["x"]⟩ := by
  have herr : ∀ nd, getV w6Dag.nodes "x" = some nd → ∀ ins, nd.action ins = .error "boom" := by
    intro nd hnd ins
    rw [show getV w6Dag.nodes "x" = some w6NodeX from rfl] at hnd
    cases hnd
    rfl
  have h := c6_main w6Sched ["y", "x"] [] [] "x" ["y"] "boom" rfl rfl rfl
    (by intro m hm; simp at hm) (by intro m hm; simp at hm) (by decide) herr
  simpa using h

/-! ## Claim C7 -/

/-- C7 (amended): the cumulative `tokensUsed` counter is scoped to the
scheduler *instance*, not to one run — `execute` never resets it.  A run
whose total cost fits starts admission at the instance's current
`tokensUsed` and ends with it increased by the total; consequently, when the
graph's total cost `t` satisfies `t ≤ b < 2·t`, a fresh scheduler's first
`execute` call succeeds but the second call on the same instance fails with
the budget error, refuting the claim that both succeed. -/
theorem c7_main {α : Type} (s : SchedP7 α) (b : Nat) (ord : List String) (inputs : AList α)
    (hb : s.tokenBudget = some b)
    (htopo : s.dag.getTopologicalOrder = .ok ord)
    (hreg : AllReg s.dag ord.reverse) (hact : ActionsOk s.dag ord.reverse)
    (h0 : s.tokensUsed = 0)
    (hle : sumCost s.dag ord.reverse ≤ b)
    (h2 : b < 2 * sumCost s.dag ord.reverse) :
    (∃ res, (s.execute inputs).outcome = .ok res) ∧
    (s.execute inputs).tokensUsed = sumCost s.dag ord.reverse ∧
    (({ s with tokensUsed := (s.execute inputs).tokensUsed }).execute inputs).outcome
      = .error "Token budget exceeded" := by
  obtain ⟨res, hres⟩ := execGo_ok s.dag s.tokenBudget inputs ord.reverse inputs
    s.tokensUsed [] hreg hact (fun b' hb' => by rw [hb] at hb'; cases hb'; omega)
  have hexec : s.execute inputs =
      ⟨.ok res, s.tokensUsed + sumCost s.dag ord.reverse, [] ++ ord.reverse⟩ := by
    rw [execute_eq s inputs ord htopo]; exact hres
  have htok : (s.execute inputs).tokensUsed = sumCost s.dag ord.reverse := by
    rw [hexec]; simp [h0]
  refine ⟨⟨res, by rw [hexec]⟩, htok, ?_⟩
  have hs' : (({ s with tokensUsed := (s.execute inputs).tokensUsed } : SchedP7 α).execute
      inputs) = execGo s.dag s.tokenBudget inputs ord.reverse inputs
        ((s.execute inputs).tokensUsed) [] :=
    execute_eq _ inputs ord htopo
  rw [hs', hb, htok]
  exact execGo_budget_exceeds s.dag b inputs ord.reverse inputs _ [] hreg hact hle
    (by omega)

/-- C7 witness: the amended claim at the one-node graph of cost 5 with
budget 8 — the first call succeeds and reserves 5 tokens, the second call
on the same instance fails. -/
theorem c7_witness :
    (∃ res, (c7Sched.execute []).outcome = .ok res) ∧
    (c7Sched.execute []).tokensUsed = sumCost c7Dag ["a"] ∧
    (({ c7Sched with tokensUsed := (c7Sched.execute []).tokensUsed }).execute []).outcome
      = .error "Token budget exceeded" := by
  have hact : ActionsOk c7Dag (["a"].reverse) := by
    intro n hn nd hnd ins
    simp at hn
    subst hn
    rw [show getV c7Dag.nodes "a" = some c7Node from rfl] at hnd
    cases hnd
    exact ⟨1, rfl⟩
  exact c7_main c7Sched 8 ["a"] [] rfl rfl (by decide) hact rfl (by decide) (by decide)

/-! ## Claim C2 -/

/-- C2: the claim fails on the code.  With deterministic actions on the
dependency chain `A → B → C`, `Scheduler.execute` and
`Scheduler.executeParallel` of part_007 disagree: `getLevelGroups` computes
node levels in a single pass over the *dependents-first* order returned by
`getTopologicalOrder`, so `B` and `C` land in the same level and `C` runs
without `B`'s output.  Sequentially `C` sees `B = 11` and records `111`;
in parallel `C`'s input map lacks `B` and it records `100`. -/
theorem c2_main :
    (c2Sched.execute []).outcome = .ok [("A", 1), ("B", 11), ("C", 111)] ∧
    (c2Sched.executeParallel []).outcome = .ok [("A", 1), ("C", 100), ("B", 11)] ∧
    getV [("A", (1 : Nat)), ("B", 11), ("C", 111)] "C" = some 111 ∧
    getV [("A", (1 : Nat)), ("C", 100), ("B", 11)] "C" = some 100 :=
  ⟨rfl, rfl, rfl, rfl⟩

/-! ## Claim C5 -/

/-- Membership in the adjacency lists after the dependency fold of
`DagTS.addNode`: an edge is either already in the accumulator or was
appended as `dep → nm` for a registered dependency `dep`. -/
theorem mem_depFold {α : Type} (nodes : AList (Node α)) (nm : String) :
    ∀ (l : List String) (es : AList (List String)) (u v : String),
    (v ∈ ((getV (l.foldl
        (fun es dep =>
          if hasK nodes dep then setV es dep ((getV es dep).getD [] ++ [nm]) else es)
        es) u).getD []))
    ↔ (v ∈ ((getV es u).getD []) ∨ (u ∈ l ∧ hasK nodes u = true ∧ v = nm)) := by
  intro l
  induction l with
  | nil => intro es u v; simp
  | cons d rest ih =>
    intro es u v
    simp only [List.foldl_cons]
    rw [ih]
    by_cases hd : hasK nodes d
    · rw [if_pos hd]
      by_cases hu : d = u
      · subst hu
        rw [getV_setV_self]
        simp only [Option.getD_some, List.mem_append, List.mem_singleton]
        constructor
        · rintro ((h | h) | ⟨hm, hk, hv⟩)
          · exact Or.inl h
          · exact Or.inr ⟨List.mem_cons_self d rest, hd, h⟩
          · exact Or.inr ⟨List.mem_cons_of_mem d hm, hk, hv⟩
        · rintro (h | ⟨_, _, hv⟩)
          · exact Or.inl (Or.inl h)
          · exact Or.inl (Or.inr hv)
      · rw [getV_setV_ne _ _ _ _ hu]
        have hu' : ¬ u = d := fun h => hu h.symm
        constructor
        · rintro (h | ⟨hm, hk, hv⟩)
          · exact Or.inl h
          · exact Or.inr ⟨List.mem_cons_of_mem d hm, hk, hv⟩
        · rintro (h | ⟨hm, hk, hv⟩)
          · exact Or.inl h
          · rcases List.mem_cons.mp hm with he | hm2
            · exact absurd he hu'
            · exact Or.inr ⟨hm2, hk, hv⟩
    · rw [if_neg hd]
      constructor
      · rintro (h | ⟨hm, hk, hv⟩)
        · exact Or.inl h
        · exact Or.inr ⟨List.mem_cons_of_mem d hm, hk, hv⟩
      · rintro (h | ⟨hm, hk, hv⟩)
        · exact Or.inl h
        · rcases List.mem_cons.mp hm with he | hm2
          · exact absurd (he ▸ hk) hd
          · exact Or.inr ⟨hm2, hk, hv⟩

/-- The adjacency relation after `DagTS.addNode`: old edges of other
sources survive (the new node's own list is reset), and the known edges
`dep → n.name` appear for each registered dependency. -/
theorem edgeRel_addNode {α : Type} (g : DagTS α) (n : Node α) (u v : String) :
    DagTS.EdgeRel (g.addNode n) u v ↔
      ((u ≠ n.name ∧ DagTS.EdgeRel g u v) ∨
       (u ∈ n.dependencies ∧ hasK (setV g.nodes n.name n) u = true ∧ v = n.name)) := by
  unfold DagTS.EdgeRel DagTS.addNode
  simp only
  rw [mem_depFold]
  by_cases hu : u = n.name
  · subst hu
    rw [getV_setV_self]
    simp
  · rw [getV_setV_ne _ _ _ _ (fun he => hu he.symm)]
    simp [hu]

/-- C5 (amended): the two-representation invariant holds for graphs built
only by `addNode` calls with fresh names — there every adjacency edge comes
from a dependency list — but `addEdge` updates only the adjacency list: it
leaves every node record (hence every `dependencies` list) unchanged, merely
appending the deduplicated target to the source's adjacency list, so an
`addEdge` call breaks the invariant (see the counterexample). -/
theorem c5_main :
    (∀ (α : Type) (g : DagTS α), BuiltNodesTS g → EdgeDepInv g) ∧
    (∀ (α : Type) (g g' : DagTS α) (a c : String), DagTS.addEdge g a c = .ok g' →
      g'.nodes = g.nodes ∧
      (getV g'.edges a).getD [] =
        (if c ∈ (getV g.edges a).getD [] then (getV g.edges a).getD []
         else (getV g.edges a).getD [] ++ [c]) ∧
      (∀ u, u ≠ a → getV g'.edges u = getV g.edges u)) := by
  constructor
  · intro α g hb
    induction hb with
    | empty name =>
      intro u v h
      simp [DagTS.EdgeRel, DagTS.empty] at h
    | @addNode g n hb hfresh ih =>
      intro u v h
      rw [edgeRel_addNode] at h
      rcases h with ⟨hu, h⟩ | ⟨hdep, _, hv⟩
      · obtain ⟨nd, hnd, hmem⟩ := ih u v h
        have hvne : v ≠ n.name := by
          intro hv
          subst hv
          rw [getV_eq_none_of_not_mem g.nodes n.name hfresh] at hnd
          cases hnd
        refine ⟨nd, ?_, hmem⟩
        show getV (setV g.nodes n.name n) v = some nd
        rw [getV_setV_ne _ _ _ _ (fun he => hvne he.symm)]
        exact hnd
      · subst hv
        exact ⟨n, getV_setV_self _ _ _, hdep⟩
  · intro α g g' a c h
    rw [DagTS.addEdge] at h
    by_cases h1 : hasK g.nodes a
    · by_cases h2 : hasK g.nodes c
      · simp only [h1, h2, not_true, if_false, ite_false, if_neg] at h
        by_cases h3 : c ∈ (getV g.edges a).getD []
        · rw [if_pos h3] at h
          cases h
          exact ⟨rfl, by rw [if_pos h3], fun u _ => rfl⟩
        · rw [if_neg h3] at h
          cases h
          refine ⟨rfl, ?_, ?_⟩
          · rw [if_neg h3]
            show (getV (setV g.edges a _) a).getD [] = _
            rw [getV_setV_self]
            rfl
          · intro u hu
            show getV (setV g.edges a _) u = getV g.edges u
            rw [getV_setV_ne _ _ _ _ (fun he => hu he.symm)]
      · simp [h1, h2] at h
    · simp [h1] at h

/-- C5 witness: on the graph built by `addNode(X); addNode(Y)` with `Y`
depending on `X`, the invariant holds for the edge `X → Y`; and the
successful `addEdge('A','B')` on the dependency-free two-node graph leaves the
node records untouched while appending `B` to `A`'s adjacency list. -/
theorem c5_witness :
    (∃ nd, getV w5Dag.nodes "Y" = some nd ∧ "X" ∈ nd.dependencies) ∧
    c5Dag.nodes = c5Base.nodes ∧
    (getV c5Dag.edges "A").getD [] = ["B"] ∧
    getV c5Dag.edges "B" = getV c5Base.edges "B" := by
  have hb : BuiltNodesTS w5Dag :=
    .addNode (.addNode (.empty "w") (by decide)) (by decide)
  have h1 := c5_main.1 Unit w5Dag hb "X" "Y" (by decide)
  have h2 := c5_main.2 Unit c5Base c5Dag "A" "B" rfl
  exact ⟨h1, h2.1, by simpa using h2.2.1, h2.2.2 "B" (by decide)⟩

/-! ## Claim C5: counterexample -/

/-- C5: the claimed invariant fails.  On the graph built by
`addNode(A); addNode(B)` (no dependency lists), `addEdge('A','B')` succeeds
and creates the adjacency edge `A → B`, yet `B`'s `dependencies` list does
not contain `A` — `src/src/dag.ts`'s `addEdge` never updates the reverse
dependency list. -/
theorem c5_counterexample :
    DagTS.addEdge c5Base "A" "B" = .ok c5Dag ∧
    DagTS.EdgeRel c5Dag "A" "B" ∧
    getV c5Dag.nodes "B" = some c5NodeB ∧
    "A" ∉ c5NodeB.dependencies :=
  ⟨rfl, by decide, rfl, by decide⟩

/-! ## Claim C6: counterexample -/

/-- C6: the claim fails for the `Scheduler` of `src/src/scheduler.ts`.  On
the graph `n1 → n2` where `n1`'s action always throws `'boom'`, `execute`
resolves successfully: the failure is stored as `{ error: 'boom' }` under
`n1` and `n2` still executes — the error is neither propagated nor does the
run abort. -/
theorem c6_counterexample :
    (∀ ins, c6Node1.action ins = .error "boom") ∧
    srcExecute c6Dag "d" =
      .ok ([("input", [("data", "d")]), ("n1", [("error", "boom")]),
            ("n2", [("ok", "yes")])],
           ["n1", "n2"]) :=
  ⟨fun _ => rfl, rfl⟩

/-! ## Claim C7: counterexample -/

/-- C7: the claim fails on the code.  `tokensUsed` is an instance field that
`execute` never resets: over a one-node graph of total cost 5 with budget 8
(so each run alone is within budget), the first `execute` call succeeds and
leaves `tokensUsed = 5`, and the second call on the same scheduler instance
fails with `'Token budget exceeded'`. -/
theorem c7_counterexample :
    sumCost c7Dag ["a"] ≤ 8 ∧
    (c7Sched.execute []).outcome = .ok [("a", 1)] ∧
    (c7Sched.execute []).tokensUsed = 5 ∧
    (({ c7Sched with tokensUsed := (c7Sched.execute []).tokensUsed }).execute
      []).outcome = .error "Token budget exceeded" :=
  ⟨by decide, rfl, rfl, rfl⟩

/-! ## Claim C8: counterexample -/

/-- C8: the claim fails on the code.  With `maxParallelNodes = 1` and three
mutually independent nodes, `executeParallel` launches all three concurrently
in a single `Promise.all` batch — the configured cap is not consulted. -/
theorem c8_counterexample :
    c8Sched.maxParallelNodes = 1 ∧
    (c8Sched.executeParallel []).batches = [["c", "b", "a"]] ∧
    (∃ lv ∈ (c8Sched.executeParallel []).batches, lv.length > c8Sched.maxParallelNodes) ∧
    (c8Sched.executeParallel []).outcome = .ok [("c", 3), ("b", 2), ("a", 1)] :=
  ⟨rfl, rfl, ⟨["c", "b", "a"], by decide⟩, rfl⟩

/-! ## Claim C9 -/

/-- C9: the claim fails for `src/src/dag.ts`.  Adding a second node named
`A` to a graph that already has one does not raise a duplicate-node error:
`addNode` is total, silently replaces the stored node (the new token cost 7
is observable) and resets `A`'s adjacency list, which had contained `B`. -/
theorem c9_counterexample :
    getV c9G2.edges "A" = some ["B"] ∧
    getV c9G3.nodes "A" = some c9NodeA2 ∧
    getV c9G3.nodes "A" ≠ some c9NodeA ∧
    getV c9G3.edges "A" = some [] := by
  refine ⟨rfl, rfl, ?_, rfl⟩
  intro h
  rw [show getV c9G3.nodes "A" = some c9NodeA2 from rfl] at h
  have := congrArg (fun o => Option.map Node.tokenCost o) h
  simp [c9NodeA2, c9NodeA] at this

/-- C9 (amended): the part_004 `DAG.addNode` rejects duplicates — it throws
the duplicate-id error exactly when the id is already registered, and
otherwise registers the node — while the `src/src/dag.ts` `addNode` performs
no duplicate check at all and silently stores the new node under its name. -/
theorem c9_main :
    (∀ (α : Type) (g : DagP4 α) (n : NodeP4 α), hasK g.nodes n.id = true →
      DagP4.addNode g n = .error ("Node with id " ++ n.id ++ " already exists in the DAG")) ∧
    (∀ (α : Type) (g : DagP4 α) (n : NodeP4 α), hasK g.nodes n.id = false →
      ∃ g', DagP4.addNode g n = .ok g' ∧ getV g'.nodes n.id = some n ∧
        keysOf g'.nodes = keysOf g.nodes ++ [n.id]) ∧
    (∀ (α : Type) (g : DagTS α) (n : Node α),
      getV (g.addNode n).nodes n.name = some n) := by
  refine ⟨?_, ?_, ?_⟩
  · intro α g n h
    simp [DagP4.addNode, h]
  · intro α g n h
    refine ⟨DagP4.mk g.name (setV g.nodes n.id n)
        (if hasK g.edges n.id then g.edges else setV g.edges n.id []) g.edgeMappings,
      ?_, getV_setV_self _ _ _, ?_⟩
    · simp [DagP4.addNode, h]
    · exact keysOf_setV_of_not_mem _ _ _ (fun hm => by
        rw [← hasK_true_iff] at hm
        simp [hm] at h)
  · intro α g n
    exact getV_setV_self _ _ _

/-! ## Claim C10: lemmas about first-occurrence replacement -/

theorem splitFirst_sound (pat : List Char) :
    ∀ (s b a : List Char), splitFirst pat s = some (b, a) → s = b ++ pat ++ a := by
  intro s
  induction s with
  | nil =>
    intro b a h
    simp only [splitFirst] at h
    by_cases hp : pat.isPrefixOf []
    · rw [if_pos hp] at h
      simp only [Option.some.injEq, Prod.mk.injEq] at h
      obtain ⟨hb, ha⟩ := h
      subst hb; subst ha
      have hpn : pat = [] := by
        rw [List.isPrefixOf_iff_prefix] at hp
        simpa using hp
      simp [hpn]
    · rw [if_neg hp] at h
      cases h
  | cons c rest ih =>
    intro b a h
    simp only [splitFirst] at h
    by_cases hp : pat.isPrefixOf (c :: rest)
    · rw [if_pos hp] at h
      simp only [Option.some.injEq, Prod.mk.injEq] at h
      obtain ⟨hb, ha⟩ := h
      subst hb; subst ha
      obtain ⟨t, ht⟩ := List.isPrefixOf_iff_prefix.mp hp
      rw [show (c :: rest) = pat ++ t from ht.symm, List.drop_left]
      simp
    · rw [if_neg hp] at h
      rw [Option.map_eq_some'] at h
      obtain ⟨⟨b0, a0⟩, hsp, heq⟩ := h
      simp only [Prod.mk.injEq] at heq
      obtain ⟨hb, ha⟩ := heq
      subst hb; subst ha
      have := ih b0 a0 hsp
      simp [this]

theorem splitFirst_minimal (pat : List Char) :
    ∀ (s b a : List Char), splitFirst pat s = some (b, a) →
      ∀ b' a', s = b' ++ pat ++ a' → b.length ≤ b'.length := by
  intro s
  induction s with
  | nil =>
    intro b a h b' a' _
    simp only [splitFirst] at h
    by_cases hp : pat.isPrefixOf []
    · rw [if_pos hp] at h
      simp only [Option.some.injEq, Prod.mk.injEq] at h
      obtain ⟨hb, _⟩ := h
      subst hb
      simp
    · rw [if_neg hp] at h
      cases h
  | cons c rest ih =>
    intro b a h b' a' hs
    simp only [splitFirst] at h
    by_cases hp : pat.isPrefixOf (c :: rest)
    · rw [if_pos hp] at h
      simp only [Option.some.injEq, Prod.mk.injEq] at h
      obtain ⟨hb, _⟩ := h
      subst hb
      simp
    · rw [if_neg hp] at h
      rw [Option.map_eq_some'] at h
      obtain ⟨⟨b0, a0⟩, hsp, heq⟩ := h
      simp only [Prod.mk.injEq] at heq
      obtain ⟨hb, _⟩ := heq
      subst hb
      cases b' with
      | nil =>
        exfalso
        apply hp
        rw [List.isPrefixOf_iff_prefix]
        exact ⟨a', by simpa using hs.symm⟩
      | cons c' b0' =>
        simp only [List.cons_append, List.cons.injEq] at hs
        obtain ⟨_, hrest⟩ := hs
        have := ih b0 a0 hsp b0' a' hrest
        simpa using this

theorem splitFirst_none (pat : List Char) :
    ∀ (s : List Char), splitFirst pat s = none → ∀ b a, s ≠ b ++ pat ++ a := by
  intro s
  induction s with
  | nil =>
    intro h b a hs
    have hpat : pat = [] := by
      cases b with
      | cons x xs => simp at hs
      | nil =>
        cases pat with
        | nil => rfl
        | cons y ys => simp at hs
    subst hpat
    simp [splitFirst, List.isPrefixOf] at h
  | cons c rest ih =>
    intro h b a hs
    simp only [splitFirst] at h
    by_cases hp : pat.isPrefixOf (c :: rest)
    · rw [if_pos hp] at h; cases h
    · rw [if_neg hp] at h
      have hrest : splitFirst pat rest = none := by
        cases hsp : splitFirst pat rest with
        | none => rfl
        | some p => rw [hsp] at h; simp at h
      cases b with
      | nil =>
        apply hp
        rw [List.isPrefixOf_iff_prefix]
        exact ⟨a, by simpa using hs.symm⟩
      | cons c' b0 =>
        simp only [List.cons_append, List.cons.injEq] at hs
        exact ih hrest b0 a hs.2

/-- C10: `LLMNode.execute` renders the prompt by substituting, for each
input key in insertion order, only the *first* occurrence of the placeholder
in the current prompt.  First conjunct: a key whose placeholder does not
occur leaves the prompt unchanged (and indeed there is no occurrence).
Second conjunct: when the placeholder occurs, the prompt splits as
`b ++ placeholder ++ a` with `b` shortest (i.e. the first occurrence), the
rendered prompt is `b ++ value ++ a`, and the suffix `a` — which carries any
later occurrence of the same placeholder, and every placeholder of any other
key outside the replaced span — is left verbatim.  Third conjunct: the
entries are processed sequentially in insertion order. -/
theorem c10_main (t k v : List Char) :
    (containsSub t (placeholder k) = false →
      renderPrompt t [(k, v)] = t ∧ ∀ b a, t ≠ b ++ placeholder k ++ a) ∧
    (∀ b a, splitFirst (placeholder k) t = some (b, a) →
      renderPrompt t [(k, v)] = b ++ v ++ a ∧
      t = b ++ placeholder k ++ a ∧
      (∀ b' a', t = b' ++ placeholder k ++ a' → b.length ≤ b'.length)) ∧
    (∀ (rest : List (List Char × List Char)),
      renderPrompt t ((k, v) :: rest) = renderPrompt (renderPrompt t [(k, v)]) rest) := by
  refine ⟨?_, ?_, ?_⟩
  · intro h
    have hnone : splitFirst (placeholder k) t = none := by
      rw [containsSub] at h
      cases hsp : splitFirst (placeholder k) t with
      | none => rfl
      | some p => rw [hsp] at h; simp at h
    constructor
    · simp [renderPrompt, containsSub, hnone]
    · exact splitFirst_none (placeholder k) t hnone
  · intro b a h
    refine ⟨?_, splitFirst_sound (placeholder k) t b a h, splitFirst_minimal (placeholder k) t b a h⟩
    simp [renderPrompt, containsSub, replaceFirst, h]
  · intro rest
    rfl

/-- C10 witness: on the template `{y} then {x} and {x}` with input
`x ↦ VAL`, only the first `{x}` is replaced; `{y}` (key absent) and the
second `{x}` remain verbatim; a key `z` with no placeholder leaves the
template unchanged. -/
theorem c10_witness :
    splitFirst (placeholder c10KeyX) c10Template =
      some (placeholder c10KeyY ++ (" then ".data),
            (" and ".data) ++ placeholder c10KeyX) ∧
    renderPrompt c10Template [(c10KeyX, "VAL".data)] =
      (placeholder c10KeyY ++ (" then ".data)) ++ "VAL".data
        ++ ((" and ".data) ++ placeholder c10KeyX) ∧
    containsSub c10Template (placeholder ['z']) = false ∧
    renderPrompt c10Template [(['z'], "W".data)] = c10Template := by
  have h1 : splitFirst (placeholder c10KeyX) c10Template =
      some (placeholder c10KeyY ++ (" then ".data),
            (" and ".data) ++ placeholder c10KeyX) := by decide
  refine ⟨h1, ((c10_main c10Template c10KeyX ("VAL".data)).2.1 _ _ h1).1, by decide, ?_⟩
  exact ((c10_main c10Template ['z'] ("W".data)).1 (by decide)).1

/-- C9 witness: the amended claim instantiated — re-adding id `A` to the
two-node "P4" graph raises the duplicate error; adding fresh id `N` succeeds
and registers it; `src/src/dag.ts`'s `addNode` stores the second node named
`A` without complaint. -/
theorem c9_witness :
    DagP4.addNode w3Dag w9DupNode = .error "Node with id A already exists in the DAG" ∧
    (∃ g', DagP4.addNode w3Dag w9Node = .ok g' ∧ getV g'.nodes "N" = some w9Node ∧
      keysOf g'.nodes = ["A", "B", "N"]) ∧
    getV (c9G2.addNode c9NodeA2).nodes "A" = some c9NodeA2 :=
  ⟨c9_main.1 Unit w3Dag w9DupNode (by decide),
   c9_main.2.1 Unit w3Dag w9Node (by decide),
   c9_main.2.2 Unit c9G2 c9NodeA2⟩

/-! ## Claim C8: general lemmas -/

theorem setV_eq_append_of_not_mem {α : Type} (m : AList α) (k : String) (v : α)
    (h : k ∉ keysOf m) : setV m k v = m ++ [(k, v)] := by
  induction m with
  | nil => simp [setV]
  | cons p rest ih =>
    obtain ⟨k', v'⟩ := p
    simp at h
    push_neg at h
    simp [setV, Ne.symm h.1, ih h.2]

theorem getV_setV_cases {α : Type} (m : AList α) (k k₀ : String) (v : α) (w : α)
    (h : getV (setV m k v) k₀ = some w) :
    (k = k₀ ∧ w = v) ∨ (k ≠ k₀ ∧ getV m k₀ = some w) := by
  by_cases hk : k = k₀
  · subst hk
    rw [getV_setV_self] at h
    exact Or.inl ⟨rfl, (Option.some.inj h).symm⟩
  · rw [getV_setV_ne _ _ _ _ hk] at h
    exact Or.inr ⟨hk, h⟩

/-- The batch log of the parallel loop only grows. -/
theorem parGo_batches_extend {α : Type} (g : DagTS α) (bo : Option Nat) (inputs : AList α) :
    ∀ (ls : List (List String)) (results : AList α) (tokens : Nat)
      (ran : List String) (bs : List (List String)),
    bs <+: (parGo g bo inputs ls results tokens ran bs).batches := by
  intro ls
  induction ls with
  | nil => intro results tokens ran bs; exact List.prefix_refl bs
  | cons lv rest ih =>
    intro results tokens ran bs
    simp only [parGo]
    split
    · exact ⟨[lv], rfl⟩
    · split
      · exact ⟨[lv], rfl⟩
      · split
        · exact ⟨[lv], rfl⟩
        · exact List.IsPrefix.trans ⟨[lv], rfl⟩ (ih _ _ _ (bs ++ [lv]))

/-- Whatever happens inside the level, the level that is entered is launched
as one concurrent batch and recorded in the batch log. -/
theorem parGo_head_batch {α : Type} (g : DagTS α) (bo : Option Nat) (inputs : AList α)
    (lv : List String) (rest : List (List String)) (results : AList α)
    (tokens : Nat) (ran : List String) (bs : List (List String)) :
    lv ∈ (parGo g bo inputs (lv :: rest) results tokens ran bs).batches := by
  have hmem : lv ∈ bs ++ [lv] := by simp
  simp only [parGo]
  split
  · exact hmem
  · split
    · exact hmem
    · split
      · exact hmem
      · exact (parGo_batches_extend g bo inputs rest _ _ _ (bs ++ [lv])).subset hmem

/-- One DFS step of the "TS" topological sort on a dependency-free node:
mark it visited and push it. -/
theorem visitTS_depFree_step {α : Type} (g : DagTS α) (hdf : DepFree g)
    (f : Nat) (n : String) (st : DfsSt) (nd : Node α)
    (hnd : getV g.nodes n = some nd)
    (ht : n ∉ st.temp) (hv : n ∉ st.visited) :
    visitTS g (f + 1) n st = .ok ⟨n :: st.visited, st.temp, st.acc ++ [n]⟩ := by
  have hdeps : nd.dependencies = [] := hdf n nd hnd
  simp only [visitTS, hnd, hdeps]
  rw [if_neg ht, if_neg hv]
  simp [List.foldlM, pure, Except.pure, List.erase_cons_head]

/-- The top-level DFS loop over dependency-free, pairwise-distinct fresh
keys visits each in turn and records them in order. -/
theorem visitAll_depFree {α : Type} (g : DagTS α) (hdf : DepFree g) (f : Nat) :
    ∀ (ks : List String) (visited temp acc : List String),
    ks.Nodup →
    (∀ n ∈ ks, (getV g.nodes n).isSome) →
    (∀ n ∈ ks, n ∉ visited) →
    (∀ n ∈ ks, n ∉ temp) →
    visitAllTS g (f + 1) ks ⟨visited, temp, acc⟩ =
      .ok ⟨ks.reverse ++ visited, temp, acc ++ ks⟩ := by
  intro ks
  induction ks with
  | nil => intro visited temp acc _ _ _ _; simp [visitAllTS]
  | cons n rest ih =>
    intro visited temp acc hnd hreg hvis htemp
    obtain ⟨ndv, hndv⟩ := Option.isSome_iff_exists.mp (hreg n (by simp))
    have hv := hvis n (by simp)
    have hstep := visitTS_depFree_step g hdf f n ⟨visited, temp, acc⟩ ndv hndv
      (htemp n (by simp)) hv
    simp only [visitAllTS, hv, if_false, hstep]
    rw [ih (n :: visited) temp (acc ++ [n])
      hnd.of_cons
      (fun m hm => hreg m (by simp [hm]))
      (fun m hm => by
        simp only [List.mem_cons, not_or]
        refine ⟨?_, hvis m (by simp [hm])⟩
        intro he
        subst he
        exact (List.nodup_cons.mp hnd).1 hm)
      (fun m hm => htemp m (by simp [hm]))]
    simp [List.append_assoc]

/-- `getTopologicalOrder` of a dependency-free "TS" graph with distinct node
names: the reversed key list. -/
theorem topo_depFree {α : Type} (g : DagTS α) (hdf : DepFree g)
    (hnd : (keysOf g.nodes).Nodup) :
    g.getTopologicalOrder = .ok (keysOf g.nodes).reverse := by
  unfold DagTS.getTopologicalOrder
  rw [visitAll_depFree g hdf g.nodes.length (keysOf g.nodes) [] [] [] hnd
    (fun n hn => (mem_keysOf_iff_getV g.nodes n).mp hn)
    (fun n _ => by simp) (fun n _ => by simp)]
  simp

/-- The level-raising pass of `getLevelGroups` does nothing on a
dependency-free graph. -/
theorem levelsFold_depFree {α : Type} (g : DagTS α) (hdf : DepFree g) :
    ∀ (order : List String) (m : AList Nat),
    order.foldl
      (fun m n =>
        match getV g.nodes n with
        | none => m
        | some node =>
          node.dependencies.foldl
            (fun m' d =>
              if (getV m' d).isSome then
                setV m' n (max ((getV m' n).getD 0) (((getV m' d).getD 0) + 1))
              else m') m)
      m = m := by
  intro order
  induction order with
  | nil => intro m; rfl
  | cons n rest ih =>
    intro m
    simp only [List.foldl_cons]
    cases hn : getV g.nodes n with
    | none => exact ih m
    | some nd =>
      simp only [hdf n nd hn, List.foldl_nil]
      exact ih m

/-- Folding `setV _ _ 0` over fresh distinct keys appends the zero entries. -/
theorem setZeroFold :
    ∀ (order : List String) (m : AList Nat),
    (∀ n ∈ order, n ∉ keysOf m) → order.Nodup →
    order.foldl (fun m n => setV m n 0) m = m ++ order.map (fun n => (n, 0)) := by
  intro order
  induction order with
  | nil => intro m _ _; simp
  | cons n rest ih =>
    intro m hfresh hnd
    simp only [List.foldl_cons]
    rw [setV_eq_append_of_not_mem m n 0 (hfresh n (by simp))]
    rw [ih (m ++ [(n, 0)])
      (fun x hx => by
        have hxm : x ∉ keysOf m := hfresh x (by simp [hx])
        have hxn : x ≠ n := fun he => (List.nodup_cons.mp hnd).1 (he ▸ hx)
        simp only [keysOf, List.map_append, List.mem_append]
        push_neg
        exact ⟨hxm, by simp [hxn]⟩)
      hnd.of_cons]
    simp [List.append_assoc]

/-- The generated node names are pairwise distinct. -/
theorem c8Name_inj : Function.Injective c8Name := by
  intro i j h
  have hd := congrArg String.data h
  simp only [c8Name] at hd
  have hl := congrArg List.length hd
  simp at hl
  omega

theorem c8Names_nodup (m : Nat) : ((List.range (m + 1)).map c8Name).Nodup :=
  (List.nodup_range _).map c8Name_inj

/-- Registering a list of fresh, distinctly named nodes appends their names
to the key list. -/
theorem foldl_addNode_names {α : Type} :
    ∀ (ns : List (Node α)) (g : DagTS α),
    (∀ nd ∈ ns, nd.name ∉ keysOf g.nodes) → (ns.map Node.name).Nodup →
    keysOf ((ns.foldl DagTS.addNode g).nodes) = keysOf g.nodes ++ ns.map Node.name := by
  intro ns
  induction ns with
  | nil => intro g _ _; simp
  | cons n rest ih =>
    intro g hfresh hnd
    simp only [List.foldl_cons, List.map_cons]
    have hkeys : keysOf ((g.addNode n).nodes) = keysOf g.nodes ++ [n.name] := by
      show keysOf (setV g.nodes n.name n) = _
      exact keysOf_setV_of_not_mem _ _ _ (hfresh n (by simp))
    rw [ih (g.addNode n) ?fresh hnd.of_cons, hkeys]
    · simp
    case fresh =>
      intro nd hnd'
      rw [hkeys]
      simp only [List.mem_append, List.mem_singleton]
      push_neg
      refine ⟨hfresh nd (by simp [hnd']), ?_⟩
      intro he
      have hm : nd.name ∈ rest.map Node.name := List.mem_map_of_mem _ hnd'
      exact (List.nodup_cons.mp hnd).1 (he ▸ hm)

/-- Registering dependency-free nodes keeps the graph dependency-free. -/
theorem foldl_addNode_depFree {α : Type} :
    ∀ (ns : List (Node α)) (g : DagTS α),
    (∀ nd ∈ ns, nd.dependencies = []) → DepFree g → DepFree (ns.foldl DagTS.addNode g) := by
  intro ns
  induction ns with
  | nil => intro g _ h; exact h
  | cons n rest ih =>
    intro g hdeps hdf
    refine ih (g.addNode n) (fun nd h => hdeps nd (by simp [h])) ?_
    intro k nd h
    rcases getV_setV_cases g.nodes n.name k n nd h with ⟨_, he⟩ | ⟨_, hold⟩
    · rw [he]; exact hdeps n (by simp)
    · exact hdf k nd hold

theorem c8GenDag_keys (m : Nat) :
    keysOf (c8GenDag m).nodes = (List.range (m + 1)).map c8Name := by
  have h := foldl_addNode_names ((List.range (m + 1)).map c8GenNode) (DagTS.empty "gen")
    (by intro nd _; simp [DagTS.empty, keysOf])
    (by
      rw [List.map_map]
      exact (List.nodup_range _).map (fun i j h => c8Name_inj h))
  rw [show c8GenDag m = ((List.range (m + 1)).map c8GenNode).foldl DagTS.addNode (DagTS.empty "gen") from rfl, h]
  show keysOf ([] : AList (Node Unit)) ++ _ = _
  rw [keysOf_nil, List.nil_append, List.map_map]
  rfl

theorem c8GenDag_depFree (m : Nat) : DepFree (c8GenDag m) := by
  apply foldl_addNode_depFree
  · intro nd h
    simp at h
    obtain ⟨i, _, rfl⟩ := h
    rfl
  · intro n nd h
    simp [DagTS.empty] at h

theorem c8GenDag_topo (m : Nat) :
    (c8GenDag m).getTopologicalOrder = .ok (((List.range (m + 1)).map c8Name).reverse) := by
  have hk := c8GenDag_keys m
  rw [topo_depFree _ (c8GenDag_depFree m) (by rw [hk]; exact c8Names_nodup m), hk]

theorem foldl_max_zero : ∀ (l : List String), (l.map (fun _ => (0 : Nat))).foldl max 0 = 0 := by
  intro l
  induction l with
  | nil => rfl
  | cons x xs ih => simpa using ih

/-- The generic independent-nodes graph has exactly one dependency level
holding all of its nodes. -/
theorem c8GenDag_levelGroups (m : Nat) :
    getLevelGroupsTS (c8GenDag m) =
      .ok [((List.range (m + 1)).map c8Name).reverse] := by
  have hord : (((List.range (m + 1)).map c8Name).reverse).Nodup :=
    List.nodup_reverse.mpr (c8Names_nodup m)
  unfold getLevelGroupsTS
  rw [c8GenDag_topo m]
  have h0 : (((List.range (m + 1)).map c8Name).reverse).foldl (fun m n => setV m n 0) [] =
      (((List.range (m + 1)).map c8Name).reverse).map (fun n => (n, 0)) := by
    have := setZeroFold (((List.range (m + 1)).map c8Name).reverse) []
      (by intro n _; simp [keysOf]) hord
    simpa using this
  have h1 := levelsFold_depFree (c8GenDag m) (c8GenDag_depFree m)
    (((List.range (m + 1)).map c8Name).reverse)
  simp only [h0, h1]
  have h2 : ((((List.range (m + 1)).map c8Name).reverse).map
      (fun n => ((n, 0) : String × Nat))).map Prod.snd =
      (((List.range (m + 1)).map c8Name).reverse).map (fun _ => (0 : Nat)) := by
    rw [List.map_map]
    rfl
  rw [h2, foldl_max_zero]
  have h3 : ((((List.range (m + 1)).map c8Name).reverse).map
      (fun n => ((n, 0) : String × Nat))).filter (fun p => p.2 = 0) =
      (((List.range (m + 1)).map c8Name).reverse).map (fun n => ((n, 0) : String × Nat)) := by
    rw [List.filter_eq_self]
    intro p hp
    simp at hp
    obtain ⟨x, _, hpx⟩ := hp
    simp [← hpx]
  have h4 : keysOf ((((List.range (m + 1)).map c8Name).reverse).map
      (fun n => ((n, 0) : String × Nat))) = ((List.range (m + 1)).map c8Name).reverse := by
    simp [keysOf, List.map_map]
  have h5 : ((List.range (m + 1)).map c8Name).reverse ≠ [] := by
    intro h
    have := congrArg List.length h
    simp at this
  rw [show List.range (0 + 1) = [0] from by decide]
  simp only [List.map_cons, List.map_nil, h3, h4]
  simp [h5]

/-- C8 (amended): `executeParallel` launches every dependency level as one
concurrent `Promise.all` batch regardless of `maxParallelNodes`: the entire
run is invariant under changing `maxParallelNodes` (first conjunct), and for
every configured cap `m` there is a scheduler — `m + 1` mutually independent
nodes — whose single launched batch strictly exceeds the cap (second
conjunct). -/
theorem c8_main :
    (∀ (α : Type) (s : SchedP7 α) (mp : Nat) (inputs : AList α),
      SchedP7.executeParallel
        { dag := s.dag, maxParallelNodes := mp, tokenBudget := s.tokenBudget,
          tokensUsed := s.tokensUsed } inputs = s.executeParallel inputs) ∧
    (∀ m : Nat, ∃ lv ∈ ((c8GenSched m).executeParallel []).batches,
      lv.length > (c8GenSched m).maxParallelNodes) := by
  constructor
  · intro α s mp inputs
    rfl
  · intro m
    refine ⟨((List.range (m + 1)).map c8Name).reverse, ?_, ?_⟩
    · have hpar : (c8GenSched m).executeParallel [] =
          parGo (c8GenSched m).dag (c8GenSched m).tokenBudget []
            [((List.range (m + 1)).map c8Name).reverse] [] (c8GenSched m).tokensUsed [] [] := by
        unfold SchedP7.executeParallel
        rw [show getLevelGroupsTS (c8GenSched m).dag =
          Except.ok [((List.range (m + 1)).map c8Name).reverse] from c8GenDag_levelGroups m]
      rw [hpar]
      exact parGo_head_batch _ _ _ _ _ _ _ _ _
    · show (((List.range (m + 1)).map c8Name).reverse).length > m
      simp

end Tyg

namespace Tyg

theorem foldlM_nil_except {ε σ γ : Type} (f : σ → γ → Except ε σ) (s : σ) :
    List.foldlM f s ([] : List γ) = .ok s := rfl

theorem foldlM_cons_except {ε σ γ : Type} (f : σ → γ → Except ε σ) (s : σ)
    (x : γ) (xs : List γ) :
    List.foldlM f s (x :: xs) = (f s x >>= fun s' => List.foldlM f s' xs) := rfl

theorem except_bind_ok {ε σ β : Type} (a : σ) (f : σ → Except ε β) :
    ((Except.ok a : Except ε σ) >>= f) = f a := rfl

theorem except_bind_error {ε σ β : Type} (e : ε) (f : σ → Except ε β) :
    ((Except.error e : Except ε σ) >>= f) = .error e := rfl

theorem chain_reach {E : String → String → Prop} :
    ∀ (t : List String) (h x : String),
    List.Chain' (fun a b => E b a) (h :: t) → x ∈ h :: t →
    x = h ∨ Relation.TransGen E x h := by
  intro t
  induction t with
  | nil =>
    intro h x _ hx
    simp at hx
    exact Or.inl hx
  | cons b t' ih =>
    intro h x hch hx
    rw [List.chain'_cons] at hch
    rcases List.mem_cons.mp hx with he | hx'
    · exact Or.inl he
    · rcases ih b x hch.2 hx' with he | hr
      · subst he
        exact Or.inr (Relation.TransGen.single hch.1)
      · exact Or.inr (Relation.TransGen.tail hr hch.1)

theorem lenBound {α : Type} {g : DagP4 α} {st : DfsSt} (hinv : InvP4 g st) :
    st.visited.length + st.temp.length ≤ (keysOf g.nodes).length := by
  have hnd : (st.visited ++ st.temp).Nodup := by
    rw [List.nodup_append]
    exact ⟨hinv.visitedNodup, hinv.tempNodup, fun x hx hx' => hinv.tempDisj x hx' hx⟩
  have hsub : (st.visited ++ st.temp) ⊆ keysOf g.nodes := by
    intro x hx
    rcases List.mem_append.mp hx with h | h
    · exact hinv.accReg x ((hinv.visAcc x).mp h)
    · exact hinv.tempReg x h
  have := (hnd.subperm hsub).length_le
  simpa using this

theorem visitP4_spec {α : Type} (g : DagP4 α) (hwf : WfP4 g) :
    ∀ (fuel : Nat) (n : String) (st : DfsSt),
    InvP4 g st → n ∈ keysOf g.nodes → CallCtx g st n →
    (keysOf g.nodes).length + 1 ≤ fuel + st.visited.length + st.temp.length →
    (match visitP4 g fuel n st with
     | .ok st' => InvP4 g st' ∧ st'.temp = st.temp ∧
         st.visited ⊆ st'.visited ∧ n ∈ st'.visited ∧
         st.visited.length ≤ st'.visited.length ∧
         (∃ new, st'.acc = st.acc ++ new)
     | .error (.cycleAt c) => Relation.TransGen (DagP4.EdgeRel g) c c
     | .error .outOfFuel => False) := by
  intro fuel
  induction fuel with
  | zero =>
    intro n st hinv hn hctx hfuel
    have := lenBound hinv
    simp only [visitP4]
    omega
  | succ f ih =>
    intro n st hinv hn hctx hfuel
    by_cases htemp : n ∈ st.temp
    · simp only [visitP4, if_pos htemp]
      obtain ⟨h, t, hht⟩ : ∃ h t, st.temp = h :: t := by
        cases hstemp : st.temp with
        | nil => rw [hstemp] at htemp; simp at htemp
        | cons h t => exact ⟨h, t, rfl⟩
      have hedge : DagP4.EdgeRel g h n := hctx h t hht
      have hchain := hinv.tempChain
      rw [hht] at hchain htemp
      rcases chain_reach t h n hchain htemp with he | hreach
      · subst he
        exact Relation.TransGen.single hedge
      · exact Relation.TransGen.tail hreach hedge
    · by_cases hvis : n ∈ st.visited
      · simp only [visitP4, if_neg htemp, if_pos hvis]
        exact ⟨hinv, trivial, fun x h => h, hvis, le_refl _, ⟨[], by simp⟩⟩
      · have hsuccs : ∀ v ∈ (getV g.edges n).getD [], v ∈ keysOf g.nodes ∧ DagP4.EdgeRel g n v := by
          intro v hv
          refine ⟨?_, hv⟩
          cases he : getV g.edges n with
          | none => rw [he] at hv; simp at hv
          | some l =>
            rw [he] at hv
            exact (hwf.edgesReg n l he).2 v hv
        have hinv1 : InvP4 g ⟨st.visited, n :: st.temp, st.acc⟩ := by
          refine ⟨hinv.visAcc, hinv.visitedNodup, hinv.accNodup, ?_, ?_, hinv.accReg, ?_, hinv.accOrder, ?_⟩
          · exact List.nodup_cons.mpr ⟨htemp, hinv.tempNodup⟩
          · intro x hx
            rcases List.mem_cons.mp hx with he | hx'
            · subst he; exact hvis
            · exact hinv.tempDisj x hx'
          · intro x hx
            rcases List.mem_cons.mp hx with he | hx'
            · subst he; exact hn
            · exact hinv.tempReg x hx'
          · cases hstemp : st.temp with
            | nil => simp
            | cons h t =>
              rw [List.chain'_cons]
              refine ⟨hctx h t hstemp, ?_⟩
              have := hinv.tempChain
              rw [hstemp] at this
              exact this
        have hfold : ∀ (l : List String) (s : DfsSt),
            (∀ v ∈ l, v ∈ keysOf g.nodes ∧ DagP4.EdgeRel g n v) →
            InvP4 g s → s.temp = n :: st.temp →
            (keysOf g.nodes).length + 1 ≤ f + s.visited.length + s.temp.length →
            (match List.foldlM (fun s v => visitP4 g f v s) s l with
             | .ok s2 => InvP4 g s2 ∧ s2.temp = n :: st.temp ∧
                 s.visited ⊆ s2.visited ∧ (∀ v ∈ l, v ∈ s2.visited) ∧
                 s.visited.length ≤ s2.visited.length ∧
                 (∃ new, s2.acc = s.acc ++ new)
             | .error (.cycleAt c) => Relation.TransGen (DagP4.EdgeRel g) c c
             | .error .outOfFuel => False) := by
          intro l
          induction l with
          | nil =>
            intro s _ hinv1 htmp1 _
            rw [foldlM_nil_except]
            exact ⟨hinv1, htmp1, fun x h => h, by simp, le_refl _, ⟨[], by simp⟩⟩
          | cons v vs ihl =>
            intro s hl hinv1 htmp1 hfl
            rw [foldlM_cons_except]
            have hv := hl v (by simp)
            have hvctx : CallCtx g s v := by
              intro h t hht
              rw [htmp1] at hht
              injection hht with h1 _
              rw [← h1]
              exact hv.2
            have hspec := ih v s hinv1 hv.1 hvctx hfl
            cases hres : visitP4 g f v s with
            | error e =>
              rw [hres] at hspec
              rw [except_bind_error]
              cases e with
              | cycleAt c => exact hspec
              | outOfFuel => exact hspec
            | ok s' =>
              rw [hres] at hspec
              rw [except_bind_ok]
              obtain ⟨hinv', htmp', hsub', hvmem', hlen', hacc'⟩ := hspec
              have htmp'' : s'.temp = n :: st.temp := by rw [htmp', htmp1]
              have hrest := ihl s' (fun w hw => hl w (by simp [hw])) hinv' htmp''
                (by
                  have h1 : s'.temp.length = s.temp.length := by rw [htmp'']; rw [htmp1]
                  omega)
              cases hres2 : List.foldlM (fun s v => visitP4 g f v s) s' vs with
              | error e =>
                rw [hres2] at hrest
                cases e with
                | cycleAt c => exact hrest
                | outOfFuel => exact hrest
              | ok s2 =>
                rw [hres2] at hrest
                obtain ⟨hinv2, htmp2, hsub2, hmem2, hlen2, hacc2⟩ := hrest
                refine ⟨hinv2, htmp2, hsub'.trans hsub2, ?_, le_trans hlen' hlen2, ?_⟩
                · intro w hw
                  rcases List.mem_cons.mp hw with he | hw'
                  · subst he; exact hsub2 hvmem'
                  · exact hmem2 w hw'
                · obtain ⟨n1, hn1⟩ := hacc'
                  obtain ⟨n2, hn2⟩ := hacc2
                  exact ⟨n1 ++ n2, by rw [hn2, hn1, List.append_assoc]⟩
        have happ := hfold ((getV g.edges n).getD []) ⟨st.visited, n :: st.temp, st.acc⟩
          hsuccs hinv1 rfl (by simp; omega)
        simp only [visitP4, if_neg htemp, if_neg hvis]
        cases hfoldres : List.foldlM (fun s v => visitP4 g f v s)
            (⟨st.visited, n :: st.temp, st.acc⟩ : DfsSt) ((getV g.edges n).getD []) with
        | error e =>
          rw [hfoldres] at happ
          cases e with
          | cycleAt c => exact happ
          | outOfFuel => exact happ
        | ok s2 =>
          rw [hfoldres] at happ
          obtain ⟨hinv2, htmp2, hsub2, hmem2, hlen2, hacc2⟩ := happ
          have herase : s2.temp.erase n = st.temp := by
            rw [htmp2]
            exact List.erase_cons_head n st.temp
          have hnvis2 : n ∉ s2.visited := by
            intro hmem
            exact hinv2.tempDisj n (by rw [htmp2]; simp) hmem
          have hnacc2 : n ∉ s2.acc := fun hmem => hnvis2 ((hinv2.visAcc n).mpr hmem)
          refine ⟨?_, ?_, ?_, by simp, ?_, ?_⟩
          · -- InvP4 of the pushed state
            refine ⟨?_, ?_, ?_, ?_, ?_, ?_, ?_, ?_, ?_⟩
            · intro x
              show x ∈ n :: s2.visited ↔ x ∈ s2.acc ++ [n]
              rw [List.mem_cons, List.mem_append, List.mem_singleton]
              rw [hinv2.visAcc x]
              tauto
            · exact List.nodup_cons.mpr ⟨hnvis2, hinv2.visitedNodup⟩
            · show (s2.acc ++ [n]).Nodup
              rw [List.nodup_append]
              exact ⟨hinv2.accNodup, List.nodup_singleton n,
                fun x hx hx' => hnacc2 ((List.mem_singleton.mp hx') ▸ hx)⟩
            · show (s2.temp.erase n).Nodup
              rw [herase]
              exact hinv.tempNodup
            · show ∀ x ∈ s2.temp.erase n, x ∉ n :: s2.visited
              rw [herase]
              intro x hx
              rw [List.mem_cons]
              push_neg
              have hxtemp : x ∈ s2.temp := by rw [htmp2]; simp [hx]
              refine ⟨?_, hinv2.tempDisj x hxtemp⟩
              intro he
              subst he
              exact htemp hx
            · show ∀ x ∈ s2.acc ++ [n], x ∈ keysOf g.nodes
              intro x hx
              rcases List.mem_append.mp hx with h | h
              · exact hinv2.accReg x h
              · rw [List.mem_singleton.mp h]; exact hn
            · show ∀ x ∈ s2.temp.erase n, x ∈ keysOf g.nodes
              rw [herase]
              exact hinv.tempReg
            · show ∀ u v, DagP4.EdgeRel g u v → u ∈ s2.acc ++ [n] → List.Sublist [v, u] (s2.acc ++ [n])
              intro u v huv hu
              rcases List.mem_append.mp hu with h | h
              · exact (hinv2.accOrder u v huv h).trans (List.sublist_append_left _ _)
              · rw [List.mem_singleton.mp h] at huv ⊢
                have hvmem : v ∈ s2.acc := by
                  have : v ∈ s2.visited := hmem2 v huv
                  exact (hinv2.visAcc v).mp this
                have h1 : List.Sublist [v] s2.acc := List.singleton_sublist.mpr hvmem
                have h2 : List.Sublist [n] [n] := List.Sublist.refl _
                exact h1.append h2
            · show List.Chain' _ (s2.temp.erase n)
              rw [herase]
              exact hinv.tempChain
          · show s2.temp.erase n = st.temp
            exact herase
          · intro x hx
            exact List.mem_cons_of_mem n (hsub2 hx)
          · show st.visited.length ≤ (n :: s2.visited).length
            have hlen2' : st.visited.length ≤ s2.visited.length := hlen2
            simp only [List.length_cons]
            omega
          · obtain ⟨new, hnew⟩ := hacc2
            exact ⟨new ++ [n], by show s2.acc ++ [n] = st.acc ++ (new ++ [n]); rw [hnew, List.append_assoc]⟩


theorem keysOf_length {α : Type} (m : AList α) : (keysOf m).length = m.length :=
  List.length_map _ _

theorem visitAllP4_spec {α : Type} (g : DagP4 α) (hwf : WfP4 g) (fuel : Nat) :
    ∀ (l : List String) (st : DfsSt),
    InvP4 g st → st.temp = [] → (∀ n ∈ l, n ∈ keysOf g.nodes) →
    (keysOf g.nodes).length + 1 ≤ fuel →
    (∀ st', visitAllP4 g fuel l st = .ok st' →
        InvP4 g st' ∧ st'.temp = [] ∧ st.visited ⊆ st'.visited ∧
        (∀ n ∈ l, n ∈ st'.visited)) ∧
    (∀ c, visitAllP4 g fuel l st = .error (.cycleAt c) →
        Relation.TransGen (DagP4.EdgeRel g) c c) ∧
    visitAllP4 g fuel l st ≠ .error .outOfFuel := by
  intro l
  induction l with
  | nil =>
    intro st hinv htmp _ _
    refine ⟨?_, ?_, ?_⟩
    · intro st' h
      have h' : st = st' := by
        have : (Except.ok st : Except P4Err DfsSt) = .ok st' := h
        exact Except.ok.inj this
      subst h'
      exact ⟨hinv, htmp, fun x h => h, by simp⟩
    · intro c h
      exact absurd h (by simp [visitAllP4])
    · simp [visitAllP4]
  | cons n ns ihl =>
    intro st hinv htmp hreg hfuel
    have hstep : visitAllP4 g fuel (n :: ns) st =
        match (if n ∈ st.visited then Except.ok st else visitP4 g fuel n st) with
        | .error e => .error e
        | .ok st' => visitAllP4 g fuel ns st' := rfl
    by_cases hvis : n ∈ st.visited
    · have heq2 : visitAllP4 g fuel (n :: ns) st = visitAllP4 g fuel ns st := by
        rw [hstep, if_pos hvis]
      have hrest := ihl st hinv htmp (fun m hm => hreg m (by simp [hm])) hfuel
      refine ⟨?_, ?_, ?_⟩
      · intro st' h
        rw [heq2] at h
        obtain ⟨hinv', htmp', hsub', hmem'⟩ := hrest.1 st' h
        refine ⟨hinv', htmp', hsub', ?_⟩
        intro m hm
        rcases List.mem_cons.mp hm with he | hm'
        · subst he; exact hsub' hvis
        · exact hmem' m hm'
      · intro c h
        rw [heq2] at h
        exact hrest.2.1 c h
      · rw [heq2]
        exact hrest.2.2
    · have heq2 : visitAllP4 g fuel (n :: ns) st =
          match visitP4 g fuel n st with
          | .error e => .error e
          | .ok st' => visitAllP4 g fuel ns st' := by
        rw [hstep, if_neg hvis]
      have hctx : CallCtx g st n := by
        intro h t hht
        rw [htmp] at hht
        cases hht
      have hn : n ∈ keysOf g.nodes := hreg n (by simp)
      have hspec := visitP4_spec g hwf fuel n st hinv hn hctx
        (by rw [htmp]; simp; omega)
      cases hres : visitP4 g fuel n st with
      | error e =>
        rw [hres] at hspec heq2
        have heq3 : visitAllP4 g fuel (n :: ns) st = .error e := heq2
        cases e with
        | cycleAt c =>
          refine ⟨?_, ?_, ?_⟩
          · intro st' h
            rw [heq3] at h
            exact absurd h (by simp)
          · intro c' h
            rw [heq3] at h
            have hcc : c = c' := by
              have := Except.error.inj h
              cases this
              rfl
            rw [← hcc]
            exact hspec
          · rw [heq3]
            simp
        | outOfFuel => exact hspec.elim
      | ok st1 =>
        rw [hres] at hspec heq2
        have heq3 : visitAllP4 g fuel (n :: ns) st = visitAllP4 g fuel ns st1 := heq2
        obtain ⟨hinv1, htmp1, hsub1, hnvis1, _, _⟩ := hspec
        have htmp1' : st1.temp = [] := by rw [htmp1, htmp]
        have hrest := ihl st1 hinv1 htmp1' (fun m hm => hreg m (by simp [hm])) hfuel
        refine ⟨?_, ?_, ?_⟩
        · intro st' h
          rw [heq3] at h
          obtain ⟨hinv', htmp', hsub', hmem'⟩ := hrest.1 st' h
          refine ⟨hinv', htmp', fun x hx => hsub' (hsub1 hx), ?_⟩
          intro m hm
          rcases List.mem_cons.mp hm with he | hm'
          · subst he; exact hsub' hnvis1
          · exact hmem' m hm'
        · intro c h
          rw [heq3] at h
          exact hrest.2.1 c h
        · rw [heq3]
          exact hrest.2.2

theorem edgesReg_setV {K : List String} {E : AList (List String)}
    (hE : ∀ u l, getV E u = some l → u ∈ K ∧ ∀ v ∈ l, v ∈ K)
    (a : String) (nl : List String) (ha : a ∈ K) (hnl : ∀ v ∈ nl, v ∈ K) :
    ∀ u l, getV (setV E a nl) u = some l → u ∈ K ∧ ∀ v ∈ l, v ∈ K := by
  intro u l h
  by_cases hua : u = a
  · subst hua
    rw [getV_setV_self] at h
    have hl : l = nl := (Option.some.inj h).symm
    subst hl
    exact ⟨ha, hnl⟩
  · rw [getV_setV_ne E a u nl (fun hh => hua hh.symm)] at h
    exact hE u l h

theorem builtP4_wf {α : Type} (g : DagP4 α) (hb : DagP4.Built g) : WfP4 g := by
  induction hb with
  | empty name =>
    refine ⟨by simp [DagP4.empty, keysOf], ?_⟩
    intro u l h
    exact absurd h (by simp [DagP4.empty, getV])
  | addNode hb heq ih =>
    next g0 g' n =>
    rw [DagP4.addNode] at heq
    by_cases hk : hasK g0.nodes n.id
    · rw [if_pos hk] at heq
      exact absurd heq (by simp)
    · rw [if_neg hk] at heq
      have h2 := Except.ok.inj heq
      subst h2
      have hnid : n.id ∉ keysOf g0.nodes := by
        intro hmem
        exact hk ((hasK_true_iff g0.nodes n.id).mpr hmem)
      have hkeys : keysOf (setV g0.nodes n.id n) = keysOf g0.nodes ++ [n.id] :=
        keysOf_setV_of_not_mem g0.nodes n.id n hnid
      have hmono : ∀ x, x ∈ keysOf g0.nodes → x ∈ keysOf (setV g0.nodes n.id n) := by
        intro x hx
        rw [hkeys]
        exact List.mem_append_left _ hx
      refine ⟨?_, ?_⟩
      · show (keysOf (setV g0.nodes n.id n)).Nodup
        rw [hkeys, List.nodup_append]
        exact ⟨ih.nodupNodes, List.nodup_singleton _,
          fun x hx hx' => hnid ((List.mem_singleton.mp hx') ▸ hx)⟩
      · show ∀ u l, getV (if hasK g0.edges n.id then g0.edges else setV g0.edges n.id []) u = some l → _
        by_cases he : hasK g0.edges n.id
        · rw [if_pos he]
          intro u l h
          obtain ⟨hu, hl⟩ := ih.edgesReg u l h
          exact ⟨hmono u hu, fun v hv => hmono v (hl v hv)⟩
        · rw [if_neg he]
          refine edgesReg_setV ?_ n.id [] ?_ ?_
          · intro u l h
            obtain ⟨hu, hl⟩ := ih.edgesReg u l h
            exact ⟨hmono u hu, fun v hv => hmono v (hl v hv)⟩
          · rw [hkeys]; simp
          · intro v hv
            exact absurd hv (by simp)
  | addEdge hb heq ih =>
    next g0 g' a b m =>
    by_cases hka : hasK g0.nodes a
    case neg =>
      rw [DagP4.addEdge, if_pos (by simp [hka])] at heq
      exact absurd heq (by simp)
    by_cases hkb : hasK g0.nodes b
    case neg =>
      rw [DagP4.addEdge, if_neg (by simp [hka]), if_pos (by simp [hkb])] at heq
      exact absurd heq (by simp)
    rw [DagP4.addEdge, if_neg (by simp [hka]), if_neg (by simp [hkb])] at heq
    have ha : a ∈ keysOf g0.nodes := (hasK_true_iff g0.nodes a).mp hka
    have hb' : b ∈ keysOf g0.nodes := (hasK_true_iff g0.nodes b).mp hkb
    by_cases he : hasK g0.edges a
    · simp only [if_pos he] at heq
      by_cases hbes : b ∈ (getV g0.edges a).getD []
      · simp only [if_pos hbes] at heq
        cases m with
        | some mm =>
          have h2 := Except.ok.inj heq
          subst h2
          exact ⟨ih.nodupNodes, ih.edgesReg⟩
        | none =>
          have h2 := Except.ok.inj heq
          subst h2
          exact ⟨ih.nodupNodes, ih.edgesReg⟩
      · simp only [if_neg hbes] at heq
        have hreg : ∀ u l, getV (setV g0.edges a ((getV g0.edges a).getD [] ++ [b])) u = some l →
            u ∈ keysOf g0.nodes ∧ ∀ v ∈ l, v ∈ keysOf g0.nodes := by
          refine edgesReg_setV ih.edgesReg a _ ha ?_
          intro v hv
          rcases List.mem_append.mp hv with hv' | hv'
          · cases hge : getV g0.edges a with
            | none => rw [hge] at hv'; exact absurd hv' (by simp)
            | some l0 =>
              rw [hge] at hv'
              exact (ih.edgesReg a l0 hge).2 v hv'
          · rw [List.mem_singleton.mp hv']
            exact hb'
        cases m with
        | some mm =>
          have h2 := Except.ok.inj heq
          subst h2
          exact ⟨ih.nodupNodes, hreg⟩
        | none =>
          have h2 := Except.ok.inj heq
          subst h2
          exact ⟨ih.nodupNodes, hreg⟩
    · simp only [if_neg he, getV_setV_self, Option.getD_some, List.not_mem_nil,
        if_false, List.nil_append] at heq
      have hreg : ∀ u l, getV (setV (setV g0.edges a []) a [b]) u = some l →
          u ∈ keysOf g0.nodes ∧ ∀ v ∈ l, v ∈ keysOf g0.nodes := by
        refine edgesReg_setV ?_ a [b] ha ?_
        · refine edgesReg_setV ih.edgesReg a [] ha ?_
          intro v hv
          exact absurd hv (by simp)
        · intro v hv
          rw [List.mem_singleton.mp hv]
          exact hb'
      cases m with
      | some mm =>
        have h2 := Except.ok.inj heq
        subst h2
        exact ⟨ih.nodupNodes, hreg⟩
      | none =>
        have h2 := Except.ok.inj heq
        subst h2
        exact ⟨ih.nodupNodes, hreg⟩

theorem pair_sublist_lt : ∀ {l : List String}, l.Nodup → ∀ {a b : String},
    List.Sublist [a, b] l → l.indexOf a < l.indexOf b := by
  intro l
  induction l with
  | nil =>
    intro _ a b h
    exact absurd (h.subset (List.mem_cons_self a [b])) (by simp)
  | cons c l' ihl =>
    intro hnd a b h
    have hcl' : c ∉ l' := (List.nodup_cons.mp hnd).1
    have hnd' : l'.Nodup := (List.nodup_cons.mp hnd).2
    cases h with
    | cons _ h' =>
      have hal : a ∈ l' := h'.subset (List.mem_cons_self a [b])
      have hbl : b ∈ l' := h'.subset (by simp)
      have hac : a ≠ c := fun he => hcl' (he ▸ hal)
      have hbc : b ≠ c := fun he => hcl' (he ▸ hbl)
      rw [List.indexOf_cons_ne l' (Ne.symm hac), List.indexOf_cons_ne l' (Ne.symm hbc)]
      have := ihl hnd' h'
      omega
    | cons₂ _ h' =>
      have hbl : b ∈ l' := h'.subset (List.mem_cons_self b [])
      have hbc : b ≠ c := fun he => hcl' (he ▸ hbl)
      rw [List.indexOf_cons_self, List.indexOf_cons_ne l' (Ne.symm hbc)]
      omega

theorem transGen_acc_lt {α : Type} (g : DagP4 α) (st : DfsSt) (hinv : InvP4 g st)
    (hreg : ∀ u v, DagP4.EdgeRel g u v → u ∈ st.acc) :
    ∀ u v, Relation.TransGen (DagP4.EdgeRel g) u v →
      v ∈ st.acc ∧ st.acc.indexOf v < st.acc.indexOf u := by
  intro u v h
  induction h with
  | single he =>
    have hu : u ∈ st.acc := hreg u _ he
    have hsub := hinv.accOrder u _ he hu
    exact ⟨hsub.subset (List.mem_cons_self _ _), pair_sublist_lt hinv.accNodup hsub⟩
  | tail hab hbc ihr =>
    obtain ⟨hbmem, hblt⟩ := ihr
    have hsub := hinv.accOrder _ _ hbc hbmem
    exact ⟨hsub.subset (List.mem_cons_self _ _),
      lt_trans (pair_sublist_lt hinv.accNodup hsub) hblt⟩

theorem initInvP4 {α : Type} (g : DagP4 α) : InvP4 g ⟨[], [], []⟩ := by
  refine ⟨by simp, List.nodup_nil, List.nodup_nil, List.nodup_nil, ?_, ?_, ?_, ?_, ?_⟩
  · intro x hx; exact absurd hx (by simp)
  · intro x hx; exact absurd hx (by simp)
  · intro x hx; exact absurd hx (by simp)
  · intro u v _ hu; exact absurd hu (by simp)
  · exact List.chain'_nil

theorem edgeRelP4_reg {α : Type} (g : DagP4 α) (hwf : WfP4 g) (u v : String)
    (h : DagP4.EdgeRel g u v) : u ∈ keysOf g.nodes ∧ v ∈ keysOf g.nodes := by
  rw [DagP4.EdgeRel] at h
  cases hge : getV g.edges u with
  | none => rw [hge] at h; exact absurd h (by simp)
  | some l =>
    rw [hge] at h
    obtain ⟨hu, hl⟩ := hwf.edgesReg u l hge
    exact ⟨hu, hl v h⟩

theorem topoP4_ok_props {α : Type} (g : DagP4 α) (hb : DagP4.Built g) (order : List String)
    (h : g.getTopologicalOrder = .ok order) :
    AcyclicP4 g ∧ order.Perm (keysOf g.nodes) ∧
      (∀ u v, DagP4.EdgeRel g u v → List.Sublist [u, v] order) := by
  have hwf := builtP4_wf g hb
  have hspec := visitAllP4_spec g hwf (g.nodes.length + 1) (keysOf g.nodes) ⟨[], [], []⟩
    (initInvP4 g) rfl (fun n hn => hn) (by rw [keysOf_length])
  unfold DagP4.getTopologicalOrder at h
  cases hres : visitAllP4 g (g.nodes.length + 1) (keysOf g.nodes) ⟨[], [], []⟩ with
  | error e =>
    rw [hres] at h
    exact absurd (show (Except.error e : Except P4Err (List String)) = .ok order from h)
      (by simp)
  | ok st' =>
    rw [hres] at h
    have horder : st'.acc.reverse = order :=
      Except.ok.inj (show (Except.ok st'.acc.reverse : Except P4Err (List String)) = .ok order from h)
    obtain ⟨hinv', _, _, hall⟩ := hspec.1 st' hres
    have hkeysacc : ∀ n ∈ keysOf g.nodes, n ∈ st'.acc := by
      intro n hn
      exact (hinv'.visAcc n).mp (hall n hn)
    have hreg : ∀ u v, DagP4.EdgeRel g u v → u ∈ st'.acc := by
      intro u v huv
      exact hkeysacc u (edgeRelP4_reg g hwf u v huv).1
    refine ⟨?_, ?_, ?_⟩
    · intro u hcyc
      obtain ⟨_, hlt⟩ := transGen_acc_lt g st' hinv' hreg u u hcyc
      exact lt_irrefl _ hlt
    · rw [← horder]
      refine (List.reverse_perm st'.acc).trans ?_
      refine List.Subperm.antisymm ?_ ?_
      · exact List.Nodup.subperm hinv'.accNodup (fun x hx => hinv'.accReg x hx)
      · exact List.Nodup.subperm hwf.nodupNodes hkeysacc
    · intro u v huv
      rw [← horder]
      have hsub := hinv'.accOrder u v huv (hreg u v huv)
      have := hsub.reverse
      simpa using this

theorem topoP4_cycle {α : Type} (g : DagP4 α) (hb : DagP4.Built g) (hc : HasCycleP4 g) :
    ∃ c, g.getTopologicalOrder = .error (.cycleAt c) ∧
      Relation.TransGen (DagP4.EdgeRel g) c c := by
  have hwf := builtP4_wf g hb
  have hspec := visitAllP4_spec g hwf (g.nodes.length + 1) (keysOf g.nodes) ⟨[], [], []⟩
    (initInvP4 g) rfl (fun n hn => hn) (by rw [keysOf_length])
  cases hres : visitAllP4 g (g.nodes.length + 1) (keysOf g.nodes) ⟨[], [], []⟩ with
  | error e =>
    cases e with
    | cycleAt c =>
      refine ⟨c, ?_, hspec.2.1 c hres⟩
      unfold DagP4.getTopologicalOrder
      rw [hres]
    | outOfFuel => exact absurd hres hspec.2.2
  | ok st' =>
    exfalso
    have hok : g.getTopologicalOrder = .ok st'.acc.reverse := by
      unfold DagP4.getTopologicalOrder
      rw [hres]
    obtain ⟨hac, _, _⟩ := topoP4_ok_props g hb st'.acc.reverse hok
    obtain ⟨u, hu⟩ := hc
    exact hac u hu

theorem topoP4_ok {α : Type} (g : DagP4 α) (hb : DagP4.Built g) (hac : AcyclicP4 g) :
    ∃ order, g.getTopologicalOrder = .ok order ∧ order.Perm (keysOf g.nodes) ∧
      ∀ u v, DagP4.EdgeRel g u v → List.Sublist [u, v] order := by
  cases hres : g.getTopologicalOrder with
  | ok order =>
    obtain ⟨_, hperm, hord⟩ := topoP4_ok_props g hb order hres
    exact ⟨order, rfl, hperm, hord⟩
  | error e =>
    exfalso
    have hwf := builtP4_wf g hb
    have hspec := visitAllP4_spec g hwf (g.nodes.length + 1) (keysOf g.nodes) ⟨[], [], []⟩
      (initInvP4 g) rfl (fun n hn => hn) (by rw [keysOf_length])
    cases hres2 : visitAllP4 g (g.nodes.length + 1) (keysOf g.nodes) ⟨[], [], []⟩ with
    | error e2 =>
      cases e2 with
      | cycleAt c => exact hac c (hspec.2.1 c hres2)
      | outOfFuel => exact hspec.2.2 hres2
    | ok st' =>
      have hok : g.getTopologicalOrder = .ok st'.acc.reverse := by
        unfold DagP4.getTopologicalOrder
        rw [hres2]
      rw [hres] at hok
      exact absurd hok (by simp)

/-- C1: the claim "for every acyclic graph built by addNode/addEdge,
getTopologicalOrder returns a permutation of all node names in which every
edge's source precedes its target" is refuted by the `src/src/dag.ts`
revision and proved for the `src/unnamed/part_004` revision.  First
conjunct: in the TS graph `c1Dag` (node `B` added with dependency `A`,
creating the edge `A → B`) the returned order is `["B", "A"]`, where the
edge's source `A` does not precede its target `B`.  Second conjunct: in the
part_004 revision, every graph built by `addNode`/`addEdge` calls that is
acyclic gets a topological order that is a permutation of the node names
and lists `u` before `v` for every edge `(u, v)`. -/
theorem c1_main {α : Type} (g : DagP4 α) (hb : DagP4.Built g) (hac : AcyclicP4 g) :
    (DagTS.EdgeRel c1Dag "A" "B" ∧ c1Dag.getTopologicalOrder = .ok ["B", "A"] ∧
      ¬ List.Sublist ["A", "B"] ["B", "A"]) ∧
    (∃ order, g.getTopologicalOrder = .ok order ∧ order.Perm (keysOf g.nodes) ∧
      ∀ u v, DagP4.EdgeRel g u v → List.Sublist [u, v] order) :=
  ⟨⟨by decide, by rfl, by decide⟩, topoP4_ok g hb hac⟩

theorem c1_witness :
    DagP4.Built w1Dag ∧ AcyclicP4 w1Dag ∧
    ((DagTS.EdgeRel c1Dag "A" "B" ∧ c1Dag.getTopologicalOrder = .ok ["B", "A"] ∧
      ¬ List.Sublist ["A", "B"] ["B", "A"]) ∧
     (∃ order, w1Dag.getTopologicalOrder = .ok order ∧
        order.Perm (keysOf w1Dag.nodes) ∧
        ∀ u v, DagP4.EdgeRel w1Dag u v → List.Sublist [u, v] order)) := by
  have h1 : (DagP4.empty "w" : DagP4 Unit).addNode w1NodeA =
      .ok ⟨"w", [("A", w1NodeA)], [("A", [])], []⟩ := by rfl
  have h2 : (⟨"w", [("A", w1NodeA)], [("A", [])], []⟩ : DagP4 Unit).addNode w1NodeB =
      .ok w1Dag := by rfl
  have hb : DagP4.Built w1Dag :=
    DagP4.Built.addNode (DagP4.Built.addNode (DagP4.Built.empty "w") h1) h2
  have hne : ∀ u v : String, ¬ DagP4.EdgeRel w1Dag u v := by
    intro u v h
    rw [DagP4.EdgeRel] at h
    by_cases hA : u = "A"
    · subst hA
      simp [w1Dag, getV] at h
    by_cases hB : u = "B"
    · subst hB
      simp [w1Dag, getV] at h
    have hgv : getV w1Dag.edges u = none := by
      show getV [("A", ([] : List String)), ("B", [])] u = none
      simp only [getV]
      rw [if_neg (fun hh => hA hh.symm), if_neg (fun hh => hB hh.symm)]
    rw [hgv] at h
    exact absurd h (by simp)
  have hac : AcyclicP4 w1Dag := by
    intro u hcyc
    cases hcyc with
    | single he => exact hne _ _ he
    | tail _ he => exact hne _ _ he
  exact ⟨hb, hac, c1_main w1Dag hb hac⟩

/-- C3: the claim "for every graph whose edge relation has a cycle,
getTopologicalOrder raises a cycle error naming a node on the cycle and
never returns an ordering" is refuted by the `src/src/dag.ts` revision and
proved for the `src/unnamed/part_004` revision.  First conjunct: in the TS
graph, two `addEdge` calls create the cycle `A → B → A` (both accepted),
yet `getTopologicalOrder` returns the ordering `["B", "A"]` instead of
raising — its DFS walks the `dependencies` arrays, which `addEdge` never
updates, so the cycle in `edges` is invisible to it.  Second conjunct: in
the part_004 revision, on every graph built by `addNode`/`addEdge` calls
whose edge relation has a cycle, `getTopologicalOrder` fails with a cycle
error naming a node that lies on a cycle. -/
theorem c3_main {α : Type} (g : DagP4 α) (hb : DagP4.Built g) (hc : HasCycleP4 g) :
    (c3Base.addEdge "A" "B" = .ok c3Mid ∧ c3Mid.addEdge "B" "A" = .ok c3Dag ∧
      DagTS.EdgeRel c3Dag "A" "B" ∧ DagTS.EdgeRel c3Dag "B" "A" ∧
      c3Dag.getTopologicalOrder = .ok ["B", "A"]) ∧
    (∃ c, g.getTopologicalOrder = .error (.cycleAt c) ∧
      Relation.TransGen (DagP4.EdgeRel g) c c) :=
  ⟨⟨by rfl, by rfl, by decide, by decide, by rfl⟩, topoP4_cycle g hb hc⟩

theorem c3_witness :
    DagP4.Built w3Dag ∧ HasCycleP4 w3Dag ∧
    ((c3Base.addEdge "A" "B" = .ok c3Mid ∧ c3Mid.addEdge "B" "A" = .ok c3Dag ∧
      DagTS.EdgeRel c3Dag "A" "B" ∧ DagTS.EdgeRel c3Dag "B" "A" ∧
      c3Dag.getTopologicalOrder = .ok ["B", "A"]) ∧
     (∃ c, w3Dag.getTopologicalOrder = .error (.cycleAt c) ∧
       Relation.TransGen (DagP4.EdgeRel w3Dag) c c)) := by
  have h1 : (DagP4.empty "w" : DagP4 Unit).addNode w3NodeA =
      .ok ⟨"w", [("A", w3NodeA)], [("A", [])], []⟩ := by rfl
  have h2 : (⟨"w", [("A", w3NodeA)], [("A", [])], []⟩ : DagP4 Unit).addNode w3NodeB =
      .ok ⟨"w", [("A", w3NodeA), ("B", w3NodeB)], [("A", []), ("B", [])], []⟩ := by rfl
  have h3 : (⟨"w", [("A", w3NodeA), ("B", w3NodeB)],
      [("A", []), ("B", [])], []⟩ : DagP4 Unit).addEdge "A" "B" none =
      .ok ⟨"w", [("A", w3NodeA), ("B", w3NodeB)], [("A", ["B"]), ("B", [])], []⟩ := by rfl
  have h4 : (⟨"w", [("A", w3NodeA), ("B", w3NodeB)],
      [("A", ["B"]), ("B", [])], []⟩ : DagP4 Unit).addEdge "B" "A" none =
      .ok w3Dag := by rfl
  have hb : DagP4.Built w3Dag :=
    DagP4.Built.addEdge (DagP4.Built.addEdge
      (DagP4.Built.addNode (DagP4.Built.addNode (DagP4.Built.empty "w") h1) h2) h3) h4
  have hAB : DagP4.EdgeRel w3Dag "A" "B" := by decide
  have hBA : DagP4.EdgeRel w3Dag "B" "A" := by decide
  have hc : HasCycleP4 w3Dag :=
    ⟨"A", Relation.TransGen.tail (Relation.TransGen.single hAB) hBA⟩
  exact ⟨hb, hc, c3_main w3Dag hb hc⟩

end Tyg
